import Mathlib

/-!
Verification of the JSONC-to-JSON converter `src/remove-json-comments.py`.

The script's pipeline is: read the input file, strip `/* ... */` block
comments (`re.sub(r'/\*.*?\*/', '', content, flags=re.DOTALL)`), strip
`// ...` line comments (`re.sub(r'//.*', '', content)`), strip trailing
commas (`re.sub(r',\s*([\]}])', r'\1', content)`), parse the result with
`json.loads`, and on success write `json.dump(data, f, indent=4)` to the
path obtained by `input_path.rsplit('.', 1)[0] + '.json'`.

Text is modelled as the sequence of Unicode code points of the file's
content (`List Nat`), as produced by Python reading the file as UTF-8
text.  Each `re.sub` call is modelled by an explicit left-to-right
scanning machine mirroring the regex engine's leftmost, non-overlapping
matching.  `json.loads` / `json.dump` are modelled by an executable
parser and serializer covering the fragment of Python's `json` module
relevant here; modelling restrictions (floats, astral code points,
exact diagnostic wording) are documented at the definitions.
-/

/-- Code points of a Lean string literal, used to write concrete text. -/
def strN (s : String) : List Nat := s.data.map Char.toNat

/-! ## Step 1: block comments, `re.sub(r'/\*.*?\*/', '', content, flags=re.DOTALL)` -/

/-- Scanning machine for the block-comment substitution.  State `none`:
outside any comment, characters are copied to the output.  State `some buf`:
inside a candidate comment opened by `/*`; `buf` holds the consumed raw text
(reversed, including the opening `/*`).  The first `*/` closes the comment and
nothing of it is emitted; with `re.DOTALL` the dot matches newlines, so the
scan runs across line boundaries.  If the end of input is reached inside an
unclosed candidate, its raw text is restored, since `re.sub` leaves an
unmatched `/*` in place.  Code points: 47 `/`, 42 `*`. -/
def rbcA : Option (List Nat) → List Nat → List Nat
  | none, [] => []
  | none, 47 :: 42 :: rest => rbcA (some [42, 47]) rest
  | none, c :: rest => c :: rbcA none rest
  | some buf, [] => buf.reverse
  | some _, 42 :: 47 :: rest => rbcA none rest
  | some buf, c :: rest => rbcA (some (c :: buf)) rest

/-- Model of line 13 of the source: block-comment removal. -/
def removeBlockComments (content : List Nat) : List Nat := rbcA none content

/-! ## Step 2: line comments, `re.sub(r'//.*', '', content)` -/

/-- Without `re.DOTALL` the dot does not match `\n` (code point 10), so the
substitution deletes, on each line independently, everything from the first
`//` to the end of the line.  The model splits on 10, strips each line,
and rejoins. -/
def stripLineComment : List Nat → List Nat
  | [] => []
  | 47 :: 47 :: _ => []
  | c :: rest => c :: stripLineComment rest

/-- Split on the newline code point 10; `splitNl s` is always nonempty. -/
def splitNl : List Nat → List (List Nat)
  | [] => [[]]
  | 10 :: rest => [] :: splitNl rest
  | c :: rest =>
    match splitNl rest with
    | [] => [[c]]
    | l :: ls => (c :: l) :: ls

/-- Rejoin lines with the newline code point 10. -/
def joinNl : List (List Nat) → List Nat
  | [] => []
  | [l] => l
  | l :: ls => l ++ 10 :: joinNl ls

/-- Model of line 16 of the source: line-comment removal. -/
def removeLineComments (content : List Nat) : List Nat :=
  joinNl ((splitNl content).map stripLineComment)

/-! ## Step 3: trailing commas, `re.sub(r',\s*([\]}])', r'\1', content)` -/

/-- Characters matched by the regex class `\s` (restricted to the ASCII
whitespace characters; the Unicode-only members of Python's `\s` for `str`
patterns are irrelevant for the texts considered here): space, tab, newline,
carriage return, vertical tab, form feed. -/
def isPySpace (c : Nat) : Bool :=
  c == 32 || c == 9 || c == 10 || c == 13 || c == 11 || c == 12

/-- Closing bracket or brace, the regex class `[\]}]`: 93 `]`, 125 `}`. -/
def isCloser (c : Nat) : Bool := c == 93 || c == 125

/-- Scanning machine for the trailing-comma substitution.  State `none`:
outside a candidate match.  State `some buf`: a comma has been read and
`buf` holds the whitespace seen since (reversed).  A closer ends the match
and only the closer is emitted; a non-whitespace non-closer character makes
the match fail, the comma and whitespace are restored, and scanning resumes
at that character (which may itself begin a new candidate), exactly as the
regex engine resumes at the position after a failed match start. -/
def rtcA : Option (List Nat) → List Nat → List Nat
  | none, [] => []
  | none, 44 :: rest => rtcA (some []) rest
  | none, c :: rest => c :: rtcA none rest
  | some buf, [] => 44 :: buf.reverse
  | some buf, c :: rest =>
    if isCloser c then c :: rtcA none rest
    else if isPySpace c then rtcA (some (c :: buf)) rest
    else if c = 44 then 44 :: buf.reverse ++ rtcA (some []) rest
    else 44 :: buf.reverse ++ c :: rtcA none rest

/-- Model of line 19 of the source: trailing-comma removal. -/
def removeTrailingCommas (content : List Nat) : List Nat := rtcA none content

/-- The whole cleaning pipeline, in source order (lines 13, 16, 19). -/
def cleanAll (content : List Nat) : List Nat :=
  removeTrailingCommas (removeLineComments (removeBlockComments content))

/-! ## Output path, `input_path.rsplit('.', 1)[0] + '.json'` (line 7) -/

/-- Model of `input_path.rsplit('.', 1)[0]`: everything before the rightmost
`.` (code point 46); the whole path if it contains no `.`. -/
def rsplitBase : List Nat → List Nat
  | [] => []
  | c :: rest =>
    if 46 ∈ rest then c :: rsplitBase rest
    else if c = 46 then []
    else c :: rsplitBase rest

/-- Model of line 7 of the source: the derived output path. -/
def outputPathOf (input_path : List Nat) : List Nat :=
  rsplitBase input_path ++ strN ".json"

/-! ## JSON values

Model of the value trees produced by `json.loads` and consumed by
`json.dump`.  Restrictions of the model, each documented where it bites:
numbers cover the integer fragment (no floats, hence no `NaN`/`Infinity`);
strings are sequences of code points of the Basic Multilingual Plane
(surrogate-pair `\uXXXX` escapes for astral code points are rejected
rather than combined).  Object entries keep their encountered order, as
Python dicts do. -/

inductive JVal where
  | null
  | bool (b : Bool)
  | num (n : Int)
  | str (s : List Nat)
  | arr (elems : List JVal)
  | obj (entries : List (List Nat × JVal))

mutual
def jeq : JVal → JVal → Bool
  | .null, .null => true
  | .bool a, .bool b => a == b
  | .num a, .num b => a == b
  | .str a, .str b => a == b
  | .arr a, .arr b => jeqList a b
  | .obj a, .obj b => jeqObj a b
  | _, _ => false

def jeqList : List JVal → List JVal → Bool
  | [], [] => true
  | a :: as, b :: bs => jeq a b && jeqList as bs
  | _, _ => false

def jeqObj : List (List Nat × JVal) → List (List Nat × JVal) → Bool
  | [], [] => true
  | (k, a) :: as, (k2, b) :: bs => k == k2 && jeq a b && jeqObj as bs
  | _, _ => false
end

mutual
theorem jeq_iff : ∀ a b, jeq a b = true ↔ a = b
  | .null, b => by cases b <;> simp [jeq]
  | .bool a, b => by cases b <;> simp [jeq]
  | .num a, b => by cases b <;> simp [jeq]
  | .str a, b => by cases b <;> simp [jeq]
  | .arr a, b => by
      cases b <;> simp [jeq]
      exact jeqList_iff a _
  | .obj a, b => by
      cases b <;> simp [jeq]
      exact jeqObj_iff a _

theorem jeqList_iff : ∀ as bs, jeqList as bs = true ↔ as = bs
  | [], bs => by cases bs <;> simp [jeqList]
  | a :: as, bs => by
      cases bs with
      | nil => simp [jeqList]
      | cons b bs =>
        simp [jeqList, Bool.and_eq_true, jeq_iff a b, jeqList_iff as bs]

theorem jeqObj_iff : ∀ as bs, jeqObj as bs = true ↔ as = bs
  | [], bs => by cases bs <;> simp [jeqObj]
  | (k, a) :: as, bs => by
      cases bs with
      | nil => simp [jeqObj]
      | cons b bs =>
        obtain ⟨k2, v2⟩ := b
        simp [jeqObj, Bool.and_eq_true, jeq_iff a v2, jeqObj_iff as bs,
          Prod.ext_iff, and_assoc]
end

instance : DecidableEq JVal := fun a b => decidable_of_iff _ (jeq_iff a b)

instance {ε α : Type} [DecidableEq ε] [DecidableEq α] : DecidableEq (Except ε α) :=
  fun a b =>
    match a, b with
    | .ok x, .ok y => decidable_of_iff (x = y) (by simp)
    | .error x, .error y => decidable_of_iff (x = y) (by simp)
    | .ok _, .error _ => .isFalse (by simp)
    | .error _, .ok _ => .isFalse (by simp)

/-! ## Model of `json.loads` (line 23 of the source)

The parser mirrors `json.decoder` / `json.scanner` (pure-Python variants):
the same token grammar, the same JSON whitespace (space, tab, newline,
carriage return), strict string scanning, last-wins duplicate object keys
at the first key's position (Python dict update semantics).  Diagnostics
are modelled as short message strings; the line/column/offset information
Python adds to `JSONDecodeError` is abstracted away, as is its exact
wording.  Where the model is narrower than Python (floats, `NaN`,
`Infinity`, astral and surrogate code points) the parser returns a
dedicated error rather than a value, so every theorem quantifying over
successful parses stays within the faithful fragment. -/

def errExpValue : List Nat := strN "Expecting value"
def errExtraData : List Nat := strN "Extra data"
def errExpCommaDelim : List Nat := strN "Expecting comma delimiter"
def errExpColonDelim : List Nat := strN "Expecting colon delimiter"
def errExpPropName : List Nat := strN "Expecting property name enclosed in double quotes"
def errUnterminated : List Nat := strN "Unterminated string"
def errControl : List Nat := strN "Invalid control character"
def errBadEscape : List Nat := strN "Invalid backslash escape"
def errBadHex : List Nat := strN "Invalid uXXXX escape"
def errFloatModel : List Nat := strN "number form outside the integer model"
def errNonBmpModel : List Nat := strN "code point outside the BMP model"
def errFuel : List Nat := strN "nesting beyond fuel"

/-- JSON inter-token whitespace, `json.decoder.WHITESPACE_STR = ' \t\n\r'`. -/
def skipWs : List Nat → List Nat
  | 32 :: rest => skipWs rest
  | 9 :: rest => skipWs rest
  | 10 :: rest => skipWs rest
  | 13 :: rest => skipWs rest
  | s => s

/-- Value of a hexadecimal digit code point, accepting both cases. -/
def hexVal (c : Nat) : Option Nat :=
  if 48 ≤ c ∧ c ≤ 57 then some (c - 48)
  else if 97 ≤ c ∧ c ≤ 102 then some (c - 87)
  else if 65 ≤ c ∧ c ≤ 70 then some (c - 55)
  else none

/-- Single-character backslash escapes of `json.decoder.BACKSLASH`. -/
def unescape (c : Nat) : Option Nat :=
  if c = 34 then some 34
  else if c = 92 then some 92
  else if c = 47 then some 47
  else if c = 98 then some 8
  else if c = 102 then some 12
  else if c = 110 then some 10
  else if c = 114 then some 13
  else if c = 116 then some 9
  else none

/-- Combined value of four hexadecimal digit code points, if all four are
hexadecimal digits. -/
def hex4 (a b c d : Nat) : Option Nat :=
  match hexVal a, hexVal b, hexVal c, hexVal d with
  | some x, some y, some z, some w => some (4096 * x + 256 * y + 16 * z + w)
  | _, _, _, _ => none

/-- Prepend a decoded character to a string-scan result. -/
def withChar (c : Nat) : Except (List Nat) (List Nat × List Nat) →
    Except (List Nat) (List Nat × List Nat)
  | .ok (s, rest) => .ok (c :: s, rest)
  | .error e => .error e

mutual
/-- Model of `json.decoder.py_scanstring` in strict mode, applied after the
opening quote: raw characters up to the closing quote are taken as they are,
raw control characters (below 32) are rejected, backslash escapes are decoded.
Model restriction: `\uXXXX` escapes denoting surrogate halves and raw code
points outside the Basic Multilingual Plane are rejected (Python combines
surrogate pairs and permits lone surrogates). -/
def parseStr : List Nat → Except (List Nat) (List Nat × List Nat)
  | [] => .error errUnterminated
  | c :: rest =>
    if c = 34 then .ok ([], rest)
    else if c = 92 then parseEsc rest
    else if c < 32 then .error errControl
    else if 55296 ≤ c ∧ c < 57344 then .error errNonBmpModel
    else if 65536 ≤ c then .error errNonBmpModel
    else withChar c (parseStr rest)

/-- Decode one backslash escape (the backslash is already consumed), then
continue scanning the string. -/
def parseEsc : List Nat → Except (List Nat) (List Nat × List Nat)
  | 117 :: h1 :: h2 :: h3 :: h4 :: rest =>
    match hex4 h1 h2 h3 h4 with
    | some n =>
      if 55296 ≤ n ∧ n < 57344 then .error errNonBmpModel
      else withChar n (parseStr rest)
    | none => .error errBadHex
  | [] => .error errUnterminated
  | c :: rest =>
    match unescape c with
    | some u => withChar u (parseStr rest)
    | none => .error errBadEscape
end

/-- Greedily consume decimal digits, accumulating their value. -/
def parseDigits : List Nat → Nat → (Nat × List Nat)
  | c :: rest, acc =>
    if 48 ≤ c ∧ c ≤ 57 then parseDigits rest (acc * 10 + (c - 48))
    else (acc, c :: rest)
  | [], acc => (acc, [])

/-- A head that would extend an integer literal into a float form
(`.`, `e`, `E`), which the integer model rejects. -/
def headFloatish : List Nat → Bool
  | c :: _ => c == 46 || c == 101 || c == 69
  | [] => false

/-- Unsigned part of `json.scanner.NUMBER_RE`: `0` bare, or a nonzero digit
followed by digits (no leading zeros).  Model restriction: a fractional or
exponent continuation is rejected instead of producing a float. -/
def parseUNum : List Nat → Except (List Nat) (Nat × List Nat)
  | [] => .error errExpValue
  | c :: rest =>
    if c = 48 then
      if headFloatish rest then .error errFloatModel else .ok (0, rest)
    else if 49 ≤ c ∧ c ≤ 57 then
      match parseDigits (c :: rest) 0 with
      | (n, r) => if headFloatish r then .error errFloatModel else .ok (n, r)
    else .error errExpValue

/-- Optionally signed integer literal. -/
def parseIntNum : List Nat → Except (List Nat) (Int × List Nat)
  | 45 :: rest =>
    match parseUNum rest with
    | .ok (n, r) => .ok (-(n : Int), r)
    | .error e => .error e
  | s =>
    match parseUNum s with
    | .ok (n, r) => .ok ((n : Int), r)
    | .error e => .error e

/-- Insert a parsed object entry: Python dict semantics, an existing key
keeps its original position and receives the new value, a new key is
appended. -/
def insertKV : List (List Nat × JVal) → List Nat → JVal → List (List Nat × JVal)
  | [], k, v => [(k, v)]
  | (k2, v2) :: rest, k, v =>
    if k2 = k then (k2, v) :: rest else (k2, v2) :: insertKV rest k v

/-- Parsing mode: a single value (`json.scanner.py_make_scanner` dispatch),
the element loop of `json.decoder.JSONArray`, or the member loop of
`json.decoder.JSONObject`, each with its accumulator. -/
inductive PMode where
  | top
  | arrItems (acc : List JVal)
  | objItems (acc : List (List Nat × JVal))

/-- The recursive scanner.  The fuel argument only bounds recursion depth so
that the definition is structural; `jsonLoads` supplies fuel ample for its
input (each two fuel steps consume at least one input character), so the
`errFuel` branch is unreachable from `jsonLoads`. -/
def parseF : Nat → PMode → List Nat → Except (List Nat) (JVal × List Nat)
  | 0, _, _ => .error errFuel
  | f + 1, .top, s =>
    match s with
    | [] => .error errExpValue
    | 34 :: rest => (parseStr rest).map (fun p => (.str p.1, p.2))
    | 123 :: rest =>
      match skipWs rest with
      | 125 :: r2 => .ok (.obj [], r2)
      | r => parseF f (.objItems []) r
    | 91 :: rest =>
      match skipWs rest with
      | 93 :: r2 => .ok (.arr [], r2)
      | r => parseF f (.arrItems []) r
    | 110 :: 117 :: 108 :: 108 :: rest => .ok (.null, rest)
    | 116 :: 114 :: 117 :: 101 :: rest => .ok (.bool true, rest)
    | 102 :: 97 :: 108 :: 115 :: 101 :: rest => .ok (.bool false, rest)
    | s => (parseIntNum s).map (fun p => (.num p.1, p.2))
  | f + 1, .arrItems acc, s =>
    match parseF f .top s with
    | .error e => .error e
    | .ok (v, r1) =>
      match skipWs r1 with
      | 93 :: r3 => .ok (.arr (acc ++ [v]), r3)
      | 44 :: r3 => parseF f (.arrItems (acc ++ [v])) (skipWs r3)
      | _ => .error errExpCommaDelim
  | f + 1, .objItems acc, s =>
    match s with
    | 34 :: rest =>
      match parseStr rest with
      | .error e => .error e
      | .ok (k, r1) =>
        match skipWs r1 with
        | 58 :: r3 =>
          match parseF f .top (skipWs r3) with
          | .error e => .error e
          | .ok (v, r4) =>
            match skipWs r4 with
            | 125 :: r6 => .ok (.obj (insertKV acc k v), r6)
            | 44 :: r6 => parseF f (.objItems (insertKV acc k v)) (skipWs r6)
            | _ => .error errExpCommaDelim
        | _ => .error errExpColonDelim
    | _ => .error errExpPropName

/-- Model of `json.loads` on the cleaned text: skip leading whitespace,
scan one value, skip trailing whitespace, and reject anything further
(`Extra data`). -/
def jsonLoads (s : List Nat) : Except (List Nat) JVal :=
  let t := skipWs s
  match parseF (2 * t.length + 2) .top t with
  | .error e => .error e
  | .ok (v, r) =>
    match skipWs r with
    | [] => .ok v
    | _ => .error errExtraData

/-! ## Model of `json.dump(data, f, indent=4)` (line 26 of the source)

With `indent=4` Python uses item separator `,` and key separator `: `;
every container item starts on its own line indented four spaces per
nesting level, the closing bracket returns to the enclosing level, and
empty containers print as `[]` / `{}`.  Strings are emitted with
`ensure_ascii=True`: code points 32..126 other than the quote and the
backslash are literal, the two-character escapes of `ESCAPE_DCT` are used
for `\b \t \n \f \r " \\`, and everything else becomes a lowercase
`\uXXXX` escape (the BMP fragment of the model; Python would emit a
surrogate pair for an astral code point).  Integers print in decimal. -/

/-- Lowercase hexadecimal digit code point for a value below 16. -/
def hexDig (d : Nat) : Nat := if d < 10 then 48 + d else 87 + d

/-- Four lowercase hexadecimal digits of a value below 65536. -/
def toHex4 (n : Nat) : List Nat :=
  [hexDig (n / 4096 % 16), hexDig (n / 256 % 16), hexDig (n / 16 % 16), hexDig (n % 16)]

/-- Encoding of one string character under `ensure_ascii`. -/
def encChar (c : Nat) : List Nat :=
  if c = 34 then [92, 34]
  else if c = 92 then [92, 92]
  else if c = 8 then [92, 98]
  else if c = 12 then [92, 102]
  else if c = 10 then [92, 110]
  else if c = 13 then [92, 114]
  else if c = 9 then [92, 116]
  else if 32 ≤ c ∧ c ≤ 126 then [c]
  else 92 :: 117 :: toHex4 c

/-- Encoding of a string body (between the quotes). -/
def encStr : List Nat → List Nat
  | [] => []
  | c :: rest => encChar c ++ encStr rest

/-- Decimal digits of a natural number (the fuel argument only makes the
recursion structural; `natDec` supplies enough). -/
def natDecAux : Nat → Nat → List Nat
  | 0, _ => []
  | f + 1, n => if n < 10 then [48 + n] else natDecAux f (n / 10) ++ [48 + n % 10]

/-- Decimal representation of a natural number. -/
def natDec (n : Nat) : List Nat := natDecAux (n + 1) n

/-- Python's decimal representation of an integer. -/
def dumpInt (n : Int) : List Nat :=
  if n < 0 then 45 :: natDec (-n).toNat else natDec n.toNat

/-- Indentation prefix at nesting level `l`: `4 * l` spaces. -/
def pad (l : Nat) : List Nat := List.replicate (4 * l) 32

mutual
/-- Serialization of a value at nesting level `l`. -/
def dumpVal : JVal → Nat → List Nat
  | .null, _ => strN "null"
  | .bool true, _ => strN "true"
  | .bool false, _ => strN "false"
  | .num n, _ => dumpInt n
  | .str s, _ => 34 :: encStr s ++ [34]
  | .arr [], _ => [91, 93]
  | .arr (x :: xs), l => 91 :: 10 :: pad (l + 1) ++ dumpVal x (l + 1) ++ dumpArrTail xs l
  | .obj [], _ => [123, 125]
  | .obj (e :: es), l => 123 :: 10 :: pad (l + 1) ++ dumpEntry e (l + 1) ++ dumpObjTail es l

/-- Serialization of one object member: quoted key, `: `, value. -/
def dumpEntry : List Nat × JVal → Nat → List Nat
  | (k, v), l => 34 :: encStr k ++ 34 :: 58 :: 32 :: dumpVal v l

/-- Remaining array elements after the first, then newline, closing-level
indent and `]`. -/
def dumpArrTail : List JVal → Nat → List Nat
  | [], l => 10 :: pad l ++ [93]
  | y :: ys, l => 44 :: 10 :: pad (l + 1) ++ dumpVal y (l + 1) ++ dumpArrTail ys l

/-- Remaining object members after the first, then newline, closing-level
indent and `}`. -/
def dumpObjTail : List (List Nat × JVal) → Nat → List Nat
  | [], l => 10 :: pad l ++ [125]
  | e :: es, l => 44 :: 10 :: pad (l + 1) ++ dumpEntry e (l + 1) ++ dumpObjTail es l
end

/-- The serialized document as written to the output file. -/
def dumpTop (v : JVal) : List Nat := dumpVal v 0

/-! ## The converter and the command line (lines 6..37 of the source) -/

/-- Observable outcome of one run: the process exit status, the lines
printed, and the file written (path and content), if any.  The input file
is only ever opened for reading, so the one optional write is the whole
file-system effect of a run. -/
structure RunResult where
  exitCode : Nat
  printed : List (List Nat)
  written : Option (List Nat × List Nat)
deriving DecidableEq

/-- Model of `convert_jsonc_to_json` (lines 6..31), given the input path and
the content read from it: derive the output path, clean the text, parse it;
on success write the serialized value to the output path and report it, on
`JSONDecodeError` print the diagnostic and exit with status 1 — the output
file is not touched on that path, since the write happens after a
successful `json.loads`. -/
def convert_jsonc_to_json (input_path content : List Nat) : RunResult :=
  let output_path := rsplitBase input_path ++ strN ".json"
  match jsonLoads (cleanAll content) with
  | .ok data =>
    { exitCode := 0
      printed := [strN "Successfully created: " ++ output_path]
      written := some (output_path, dumpTop data) }
  | .error e =>
    { exitCode := 1
      printed := [strN "Error parsing JSON after cleaning: " ++ e]
      written := none }

/-- Model of the `__main__` block (lines 33..37): `argv` including the
program name, and the file contents as a map from paths, standing for the
read at line 10.  With no input argument the usage line is printed and the
process falls through to a normal exit (status 0). -/
def mainRun (argv : List (List Nat)) (readFile : List Nat → List Nat) : RunResult :=
  if argv.length < 2 then
    { exitCode := 0
      printed := [strN "Usage: python jsonc_to_json.py <filename.jsonc>"]
      written := none }
  else
    convert_jsonc_to_json (argv.getD 1 []) (readFile (argv.getD 1 []))

/-! ## Properties of the output-path derivation -/

theorem rsplitBase_of_not_mem : ∀ p : List Nat, 46 ∉ p → rsplitBase p = p := by
  intro p hp
  induction p with
  | nil => rfl
  | cons c rest ih =>
    have hc : c ≠ 46 := fun h => hp (h ▸ List.mem_cons_self c rest)
    have hr : 46 ∉ rest := fun h => hp (List.mem_cons_of_mem c h)
    simp [rsplitBase, hr, hc, ih hr]

theorem rsplitBase_append_dot : ∀ pre t : List Nat, 46 ∉ t →
    rsplitBase (pre ++ 46 :: t) = pre := by
  intro pre t ht
  induction pre with
  | nil => simp [rsplitBase, ht]
  | cons c pre ih =>
    have hmem : 46 ∈ pre ++ 46 :: t := List.mem_append_right pre (List.mem_cons_self 46 t)
    simp only [List.cons_append, rsplitBase, List.append_eq, if_pos hmem, ih]

theorem exists_last_dot : ∀ p : List Nat, 46 ∈ p →
    ∃ pre t, p = pre ++ 46 :: t ∧ 46 ∉ t := by
  intro p hp
  induction p with
  | nil => cases hp
  | cons c rest ih =>
    by_cases hr : 46 ∈ rest
    · obtain ⟨pre, t, rfl, hnt⟩ := ih hr
      exact ⟨c :: pre, t, rfl, hnt⟩
    · have hc : c = 46 := by
        rcases List.mem_cons.mp hp with h | h
        · exact h.symm
        · exact absurd h hr
      exact ⟨[], rest, by simp [hc], hr⟩

/-- Stated from the claim's words, for comparison with the model of the
source expression: the base is the part of the path before its rightmost
`.`; a path with no `.` is its own base. -/
def claimBase (p : List Nat) : List Nat :=
  if 46 ∈ p then (p.reverse.drop (p.reverse.indexOf 46 + 1)).reverse else p

theorem claimBase_append_dot : ∀ pre t : List Nat, 46 ∉ t →
    claimBase (pre ++ 46 :: t) = pre := by
  intro pre t ht
  have hmem : 46 ∈ pre ++ 46 :: t := List.mem_append_right pre (List.mem_cons_self 46 t)
  have hrev : (pre ++ 46 :: t).reverse = t.reverse ++ 46 :: pre.reverse := by
    simp
  have hnt : 46 ∉ t.reverse := by simpa using ht
  have hidx : (t.reverse ++ 46 :: pre.reverse).indexOf 46 = t.reverse.length := by
    rw [List.indexOf_append_of_not_mem hnt, List.indexOf_cons_self]
    omega
  rw [claimBase, if_pos hmem, hrev, hidx]
  have hdrop : (t.reverse ++ 46 :: pre.reverse).drop (t.reverse.length + 1) = pre.reverse := by
    rw [show t.reverse.length + 1 = (t.reverse ++ [46]).length by simp,
      show t.reverse ++ 46 :: pre.reverse = (t.reverse ++ [46]) ++ pre.reverse by simp,
      List.drop_left]
  rw [hdrop, List.reverse_reverse]

theorem rsplitBase_eq_claimBase : ∀ p : List Nat, rsplitBase p = claimBase p := by
  intro p
  by_cases hp : 46 ∈ p
  · obtain ⟨pre, t, rfl, hnt⟩ := exists_last_dot p hp
    rw [rsplitBase_append_dot pre t hnt, claimBase_append_dot pre t hnt]
  · rw [rsplitBase_of_not_mem p hp, claimBase, if_neg hp]

/-- C2: for every input path the output path is the part before the
rightmost `.` (the whole path when there is no `.`) with `.json` appended;
in particular `config.jsonc` maps to `config.json` and `a.b.jsonc` to
`a.b.json`. -/
theorem claim_C2 :
    (∀ p : List Nat, outputPathOf p = claimBase p ++ strN ".json")
    ∧ outputPathOf (strN "config.jsonc") = strN "config.json"
    ∧ outputPathOf (strN "a.b.jsonc") = strN "a.b.json" :=
  ⟨fun p => by rw [outputPathOf, rsplitBase_eq_claimBase], by decide, by decide⟩

/-! ## Claims about the run model -/

/-- C1: whenever the cleaned text fails strict JSON parsing, the run reports
an error message containing the parser's diagnostic, exits with status 1,
and writes no output file (the output file is written only after parsing
succeeds). -/
theorem claim_C1 : ∀ input_path content e,
    jsonLoads (cleanAll content) = .error e →
    (convert_jsonc_to_json input_path content).exitCode = 1
    ∧ (convert_jsonc_to_json input_path content).written = none
    ∧ (convert_jsonc_to_json input_path content).printed
        = [strN "Error parsing JSON after cleaning: " ++ e]
    ∧ e <:+: strN "Error parsing JSON after cleaning: " ++ e := by
  intro p c e h
  unfold convert_jsonc_to_json
  rw [h]
  exact ⟨rfl, rfl, rfl, (List.suffix_append _ _).isInfix⟩

theorem claim_C1_witness :
    (convert_jsonc_to_json (strN "t.jsonc") (strN "\x7b\"a\": 1 \"b\": 2\x7d")).exitCode = 1
    ∧ (convert_jsonc_to_json (strN "t.jsonc") (strN "\x7b\"a\": 1 \"b\": 2\x7d")).written = none
    ∧ (convert_jsonc_to_json (strN "t.jsonc") (strN "\x7b\"a\": 1 \"b\": 2\x7d")).printed
        = [strN "Error parsing JSON after cleaning: " ++ errExpCommaDelim]
    ∧ errExpCommaDelim <:+: strN "Error parsing JSON after cleaning: " ++ errExpCommaDelim :=
  claim_C1 (strN "t.jsonc") (strN "\x7b\"a\": 1 \"b\": 2\x7d") errExpCommaDelim (by decide)

/-- C8: invoked without an input-path argument, the program prints the usage
message, performs no conversion, and exits with status 0. -/
theorem claim_C8 : ∀ (argv : List (List Nat)) (readFile : List Nat → List Nat),
    argv.length < 2 →
    mainRun argv readFile =
      { exitCode := 0
        printed := [strN "Usage: python jsonc_to_json.py <filename.jsonc>"]
        written := none } := by
  intro argv rf h
  rw [mainRun, if_pos h]

theorem claim_C8_witness :
    mainRun [strN "jsonc_to_json.py"] (fun _ => []) =
      { exitCode := 0
        printed := [strN "Usage: python jsonc_to_json.py <filename.jsonc>"]
        written := none } :=
  claim_C8 [strN "jsonc_to_json.py"] (fun _ => []) (by decide)

/-- C9: the converter's only write goes to the derived output path — the
input file is only read — and that output path coincides with the input
path exactly when the input path already ends in a `.json` extension
segment, the one case where a successful conversion overwrites the input
in place. -/
theorem claim_C9 : ∀ input_path content,
    (∀ op oc, (convert_jsonc_to_json input_path content).written = some (op, oc) →
      op = outputPathOf input_path)
    ∧ (outputPathOf input_path = input_path ↔
        ∃ pre, input_path = pre ++ strN ".json") := by
  intro p c
  constructor
  · intro op oc h
    unfold convert_jsonc_to_json at h
    cases hj : jsonLoads (cleanAll c) with
    | ok v =>
      rw [hj] at h
      simp only [Option.some.injEq, Prod.mk.injEq] at h
      exact h.1.symm
    | error e =>
      rw [hj] at h
      simp at h
  · constructor
    · intro h
      refine ⟨rsplitBase p, ?_⟩
      conv_lhs => rw [← h]
      rfl
    · rintro ⟨pre, rfl⟩
      have hjson : strN ".json" = 46 :: strN "json" := by decide
      have hnd : (46 : Nat) ∉ strN "json" := by decide
      rw [outputPathOf, hjson, rsplitBase_append_dot pre (strN "json") hnd, ← hjson]

theorem claim_C9_witness :
    strN "a.json" = outputPathOf (strN "a.jsonc")
    ∧ outputPathOf (strN "b.json") = strN "b.json" :=
  ⟨(claim_C9 (strN "a.jsonc") (strN "\x7b\x7d")).1 (strN "a.json") (strN "\x7b\x7d") (by decide),
   (claim_C9 (strN "b.json") (strN "\x7b\x7d")).2.mpr ⟨strN "b", by decide⟩⟩

/-- C10: the run is deterministic — a pure function of the argument vector
and the contents of the file system — so two invocations seeing the same
file contents produce identical exit status, printed messages and written
output. -/
theorem claim_C10 : ∀ (argv : List (List Nat)) (fs1 fs2 : List Nat → List Nat),
    (∀ path, fs1 path = fs2 path) →
    mainRun argv fs1 = mainRun argv fs2 := by
  intro argv fs1 fs2 h
  by_cases hl : argv.length < 2
  · rw [mainRun, mainRun, if_pos hl, if_pos hl]
  · rw [mainRun, mainRun, if_neg hl, if_neg hl, h]

theorem claim_C10_witness :
    mainRun [strN "p", strN "a.jsonc"] (fun _ => strN "\x7b\x7d")
      = mainRun [strN "p", strN "a.jsonc"] (fun _ => strN "\x7b\x7d") :=
  claim_C10 [strN "p", strN "a.jsonc"] (fun _ => strN "\x7b\x7d") (fun _ => strN "\x7b\x7d")
    (fun _ => rfl)

/-! ## Properties of block-comment removal (C3) -/

theorem rbcA_close : ∀ mid : List Nat, ¬ ([42, 47] <:+: mid) →
    ∀ buf post, rbcA (some buf) (mid ++ 42 :: 47 :: post) = rbcA none post := by
  intro mid
  induction mid with
  | nil => intro _ buf post; simp [rbcA]
  | cons c mid ih =>
    intro h buf post
    have hmid : ¬ ([42, 47] <:+: mid) := fun hi => h (hi.trans ⟨[c], [], by simp⟩)
    by_cases hc : c = 42
    · subst hc
      cases mid with
      | nil => simp [rbcA]
      | cons d mid2 =>
        by_cases hd : d = 47
        · exact absurd ⟨[], mid2, by simp [hd]⟩ h
        · rw [show (42 :: d :: mid2) ++ 42 :: 47 :: post
              = 42 :: d :: (mid2 ++ 42 :: 47 :: post) by simp]
          rw [show rbcA (some buf) (42 :: d :: (mid2 ++ 42 :: 47 :: post))
              = rbcA (some (42 :: buf)) (d :: (mid2 ++ 42 :: 47 :: post)) from by
            simp [rbcA, hd]]
          exact ih hmid (42 :: buf) post
    · rw [show (c :: mid) ++ 42 :: 47 :: post = c :: (mid ++ 42 :: 47 :: post) by simp]
      rw [show rbcA (some buf) (c :: (mid ++ 42 :: 47 :: post))
          = rbcA (some (c :: buf)) (mid ++ 42 :: 47 :: post) from by simp [rbcA, hc]]
      exact ih hmid (c :: buf) post

theorem rbcA_copy : ∀ (pre rest : List Nat), ¬ ([47, 42] <:+: pre) →
    (∀ r, rest ≠ 42 :: r) →
    rbcA none (pre ++ rest) = pre ++ rbcA none rest := by
  intro pre rest hpre hrest
  induction pre with
  | nil => simp
  | cons c pre ih =>
    have hpre2 : ¬ ([47, 42] <:+: pre) := fun hi => hpre (hi.trans ⟨[c], [], by simp⟩)
    by_cases hc : c = 47
    · subst hc
      cases pre with
      | nil =>
        cases hr : rest with
        | nil => simp [rbcA]
        | cons e r =>
          have he : e ≠ 42 := fun h => hrest r (by rw [hr, h])
          simp [rbcA, he]
      | cons d pre2 =>
        by_cases hd : d = 42
        · exact absurd ⟨[], pre2, by simp [hd]⟩ hpre
        · rw [show (47 :: d :: pre2) ++ rest = 47 :: d :: (pre2 ++ rest) by simp]
          rw [show rbcA none (47 :: d :: (pre2 ++ rest))
              = 47 :: rbcA none (d :: (pre2 ++ rest)) from by simp [rbcA, hd]]
          rw [show (d :: (pre2 ++ rest)) = (d :: pre2) ++ rest by simp]
          rw [ih hpre2]
          simp
    · rw [show (c :: pre) ++ rest = c :: (pre ++ rest) by simp]
      rw [show rbcA none (c :: (pre ++ rest)) = c :: rbcA none (pre ++ rest) from by
        simp [rbcA, hc]]
      rw [ih hpre2]
      simp

/-- C3: block-comment removal deletes, for a `/*` not preceded by any other
`/*` opener, everything up to and including the nearest following `*/`
(`mid` contains no `*/`), across line boundaries, and continues on the rest
of the text; the prefix is emitted unchanged. -/
theorem claim_C3 : ∀ pre mid post : List Nat,
    ¬ ([47, 42] <:+: pre) → ¬ ([42, 47] <:+: mid) →
    removeBlockComments (pre ++ 47 :: 42 :: (mid ++ 42 :: 47 :: post))
      = pre ++ removeBlockComments post := by
  intro pre mid post hpre hmid
  unfold removeBlockComments
  rw [rbcA_copy pre _ hpre (fun r h => by simp at h)]
  congr 1
  rw [show rbcA none (47 :: 42 :: (mid ++ 42 :: 47 :: post))
      = rbcA (some [42, 47]) (mid ++ 42 :: 47 :: post) from by simp [rbcA]]
  exact rbcA_close mid hmid [42, 47] post

theorem claim_C3_witness :
    removeBlockComments (strN "a" ++ 47 :: 42 :: (strN "x\ny" ++ 42 :: 47 :: strN "b/*c*/d"))
      = strN "a" ++ removeBlockComments (strN "b/*c*/d") :=
  claim_C3 (strN "a") (strN "x\ny") (strN "b/*c*/d") (by decide) (by decide)

/-! ## Properties of line-comment removal (C4) -/

theorem splitNl_ne_nil : ∀ s : List Nat, splitNl s ≠ [] := by
  intro s
  induction s with
  | nil => simp [splitNl]
  | cons c rest ih =>
    by_cases hc : c = 10
    · subst hc; simp [splitNl]
    · cases h : splitNl rest with
      | nil => exact absurd h ih
      | cons l ls =>
        rw [show splitNl (c :: rest) = (c :: l) :: ls from by simp [splitNl, hc, h]]
        simp

theorem splitNl_append : ∀ a post : List Nat, 10 ∉ a →
    splitNl (a ++ 10 :: post) = a :: splitNl post := by
  intro a post ha
  induction a with
  | nil => simp [splitNl]
  | cons c a ih =>
    have hc : c ≠ 10 := fun h => ha (h ▸ List.mem_cons_self c a)
    have ha2 : 10 ∉ a := fun h => ha (List.mem_cons_of_mem c h)
    rw [List.cons_append]
    rw [show splitNl (c :: (a ++ 10 :: post)) = (c :: a) :: splitNl post from by
      simp [splitNl, hc, ih ha2]]

theorem stripLineComment_append : ∀ pre mid : List Nat,
    ¬ ([47, 47] <:+: (pre ++ [47])) →
    stripLineComment (pre ++ 47 :: 47 :: mid) = pre := by
  intro pre mid h
  induction pre with
  | nil => simp [stripLineComment]
  | cons c pre ih =>
    have h2 : ¬ ([47, 47] <:+: (pre ++ [47])) := fun hi => h (hi.trans ⟨[c], [], by simp⟩)
    by_cases hc : c = 47
    · subst hc
      cases pre with
      | nil => exact absurd ⟨[], [], by simp⟩ h
      | cons d pre2 =>
        by_cases hd : d = 47
        · exact absurd ⟨[], pre2 ++ [47], by simp [hd]⟩ h
        · rw [show (47 :: d :: pre2) ++ 47 :: 47 :: mid
              = 47 :: d :: (pre2 ++ 47 :: 47 :: mid) by simp]
          rw [show stripLineComment (47 :: d :: (pre2 ++ 47 :: 47 :: mid))
              = 47 :: stripLineComment (d :: (pre2 ++ 47 :: 47 :: mid)) from by
            simp [stripLineComment, hd]]
          rw [show d :: (pre2 ++ 47 :: 47 :: mid) = (d :: pre2) ++ 47 :: 47 :: mid by simp]
          rw [ih h2]
    · rw [show (c :: pre) ++ 47 :: 47 :: mid = c :: (pre ++ 47 :: 47 :: mid) by simp]
      rw [show stripLineComment (c :: (pre ++ 47 :: 47 :: mid))
          = c :: stripLineComment (pre ++ 47 :: 47 :: mid) from by
        simp [stripLineComment, hc]]
      rw [ih h2]

/-- C4: on a line whose text before the first `//` is `pre` (no newline, no
earlier `//`, also not one formed with the comment's own first slash), the
line-comment substitution deletes from that `//` to the end of that line
only — the newline survives and the following lines are processed
independently. -/
theorem claim_C4 : ∀ pre mid post : List Nat,
    ¬ ([47, 47] <:+: (pre ++ [47])) → 10 ∉ pre → 10 ∉ mid →
    removeLineComments (pre ++ 47 :: 47 :: (mid ++ 10 :: post))
      = pre ++ 10 :: removeLineComments post := by
  intro pre mid post h1 h2 h3
  unfold removeLineComments
  have ha : 10 ∉ pre ++ 47 :: 47 :: mid := by
    intro hm
    rcases List.mem_append.mp hm with h | h
    · exact h2 h
    · rcases List.mem_cons.mp h with h | h
      · cases h
      · rcases List.mem_cons.mp h with h | h
        · cases h
        · exact h3 h
  rw [show pre ++ 47 :: 47 :: (mid ++ 10 :: post) = (pre ++ 47 :: 47 :: mid) ++ 10 :: post
      by simp]
  rw [splitNl_append _ post ha, List.map_cons, stripLineComment_append pre mid h1]
  have hmap : (splitNl post).map stripLineComment ≠ [] := by
    intro hnil
    exact splitNl_ne_nil post (List.map_eq_nil_iff.mp hnil)
  cases hsp : (splitNl post).map stripLineComment with
  | nil => exact absurd hsp hmap
  | cons l ls => rfl

theorem claim_C4_witness :
    removeLineComments (strN "\"a\": 1, " ++ 47 :: 47 :: (strN " comment" ++ 10 :: strN "next"))
      = strN "\"a\": 1, " ++ 10 :: removeLineComments (strN "next") :=
  claim_C4 (strN "\"a\": 1, ") (strN " comment") (strN "next")
    (by decide) (by decide) (by decide)

/-! ## Properties of trailing-comma removal (C5) -/

theorem rtcA_split : ∀ (pre : List Nat) (st : Option (List Nat)) (rest : List Nat),
    rtcA st (pre ++ 44 :: rest) = rtcA st pre ++ rtcA none (44 :: rest) := by
  intro pre
  induction pre with
  | nil =>
    intro st rest
    cases st with
    | none => simp [rtcA]
    | some buf => simp [rtcA, isCloser, isPySpace]
  | cons c pre ih =>
    intro st rest
    cases st with
    | none =>
      by_cases hc : c = 44
      · subst hc
        rw [List.cons_append,
          show rtcA none (44 :: (pre ++ 44 :: rest)) = rtcA (some []) (pre ++ 44 :: rest)
            from by simp [rtcA],
          show rtcA none (44 :: pre) = rtcA (some []) pre from by simp [rtcA],
          ih]
      · rw [List.cons_append,
          show rtcA none (c :: (pre ++ 44 :: rest)) = c :: rtcA none (pre ++ 44 :: rest)
            from by simp [rtcA, hc],
          show rtcA none (c :: pre) = c :: rtcA none pre from by simp [rtcA, hc],
          ih]
        simp
    | some buf =>
      rw [List.cons_append]
      by_cases h1 : isCloser c = true
      · rw [show rtcA (some buf) (c :: (pre ++ 44 :: rest)) = c :: rtcA none (pre ++ 44 :: rest)
            from by simp [rtcA, h1],
          show rtcA (some buf) (c :: pre) = c :: rtcA none pre from by simp [rtcA, h1],
          ih]
        simp
      · by_cases h2 : isPySpace c = true
        · rw [show rtcA (some buf) (c :: (pre ++ 44 :: rest))
              = rtcA (some (c :: buf)) (pre ++ 44 :: rest) from by simp [rtcA, h1, h2],
            show rtcA (some buf) (c :: pre) = rtcA (some (c :: buf)) pre from by
              simp [rtcA, h1, h2],
            ih]
        · by_cases hc : c = 44
          · subst hc
            rw [show rtcA (some buf) (44 :: (pre ++ 44 :: rest))
                = 44 :: buf.reverse ++ rtcA (some []) (pre ++ 44 :: rest) from by
                simp [rtcA, h1, h2],
              show rtcA (some buf) (44 :: pre) = 44 :: buf.reverse ++ rtcA (some []) pre
                from by simp [rtcA, h1, h2],
              ih]
            simp
          · rw [show rtcA (some buf) (c :: (pre ++ 44 :: rest))
                = 44 :: buf.reverse ++ c :: rtcA none (pre ++ 44 :: rest) from by
                simp [rtcA, h1, h2, hc],
              show rtcA (some buf) (c :: pre) = 44 :: buf.reverse ++ c :: rtcA none pre
                from by simp [rtcA, h1, h2, hc],
              ih]
            simp

theorem isPySpace_not_closer : ∀ c : Nat, isPySpace c = true → isCloser c = false := by
  intro c h
  simp only [isPySpace, Bool.or_eq_true, beq_iff_eq] at h
  simp only [isCloser, Bool.or_eq_false_iff, beq_eq_false_iff_ne]
  omega

theorem rtcA_pending_ws : ∀ (ws : List Nat), (∀ w ∈ ws, isPySpace w = true) →
    ∀ (buf : List Nat) (c : Nat), isCloser c = true →
    ∀ post, rtcA (some buf) (ws ++ c :: post) = c :: rtcA none post := by
  intro ws
  induction ws with
  | nil =>
    intro _ buf c hc post
    simp [rtcA, hc]
  | cons w ws ih =>
    intro hws buf c hc post
    have hw : isPySpace w = true := hws w (List.mem_cons_self w ws)
    have hwc : isCloser w = false := isPySpace_not_closer w hw
    rw [List.cons_append,
      show rtcA (some buf) (w :: (ws ++ c :: post)) = rtcA (some (w :: buf)) (ws ++ c :: post)
        from by simp [rtcA, hw, hwc],
      ih (fun x hx => hws x (List.mem_cons_of_mem w hx)) (w :: buf) c hc post]

/-- C5: every comma followed only by whitespace and then a closing `]` or
`}` is deleted, the closer is preserved, and the scan continues after it;
in particular the claim's nested example cleans to text with no dangling
comma before any closer. -/
theorem claim_C5 :
    (∀ (pre ws post : List Nat) (c : Nat),
      (∀ w ∈ ws, isPySpace w = true) → isCloser c = true →
      removeTrailingCommas (pre ++ 44 :: (ws ++ c :: post))
        = removeTrailingCommas pre ++ c :: removeTrailingCommas post)
    ∧ removeTrailingCommas (strN "\x7b\"a\": [1, 2,], \"b\": \x7b\"c\": 3,\x7d,\x7d")
        = strN "\x7b\"a\": [1, 2], \"b\": \x7b\"c\": 3\x7d\x7d" := by
  constructor
  · intro pre ws post c hws hc
    unfold removeTrailingCommas
    rw [rtcA_split pre none (ws ++ c :: post),
      show rtcA none (44 :: (ws ++ c :: post)) = rtcA (some []) (ws ++ c :: post) from by
        simp [rtcA],
      rtcA_pending_ws ws hws [] c hc post]
  · decide

theorem claim_C5_witness :
    removeTrailingCommas (strN "\x7b\"a\": [1, 2" ++ 44 :: (strN " " ++ 93 :: strN ", \"b\": \x7b\"c\": 3,\x7d,\x7d"))
      = removeTrailingCommas (strN "\x7b\"a\": [1, 2") ++ 93 :: removeTrailingCommas (strN ", \"b\": \x7b\"c\": 3,\x7d,\x7d") :=
  claim_C5.1 (strN "\x7b\"a\": [1, 2") (strN " ") (strN ", \"b\": \x7b\"c\": 3,\x7d,\x7d") 93
    (by decide) (by decide)

/-! ## Well-formedness of parsed values, and parser fuel bounds

`parseF` only ever produces values whose strings are BMP scalar sequences
and whose objects have distinct keys (Python dicts cannot hold duplicates);
these invariants are what make `json.dump` output re-parse to the same
value. -/

/-- A code point the string model can round-trip: a Unicode scalar value of
the Basic Multilingual Plane. -/
def scalarBMP (c : Nat) : Bool :=
  if c < 55296 then true
  else if 57344 ≤ c ∧ c < 65536 then true
  else false

/-- All code points of a parsed string are BMP scalar values. -/
def strOKb (s : List Nat) : Bool := s.all scalarBMP

/-- Membership of a key among an object's entries. -/
def keyMem (k : List Nat) : List (List Nat × JVal) → Bool
  | [] => false
  | (k2, _) :: es => k2 == k || keyMem k es

/-- Distinctness of an object's keys. -/
def nodupKeys : List (List Nat × JVal) → Bool
  | [] => true
  | (k, _) :: es => !keyMem k es && nodupKeys es

mutual
/-- Invariant of every value `parseF` produces. -/
def valOK : JVal → Bool
  | .null => true
  | .bool _ => true
  | .num _ => true
  | .str s => strOKb s
  | .arr xs => valOKItems xs
  | .obj es => nodupKeys es && valOKEntries es

def valOKItems : List JVal → Bool
  | [] => true
  | x :: xs => valOK x && valOKItems xs

def valOKEntries : List (List Nat × JVal) → Bool
  | [] => true
  | (k, v) :: es => strOKb k && valOK v && valOKEntries es
end

mutual
/-- Fuel sufficient for `parseF` to scan the serialized form of a value. -/
def fsize : JVal → Nat
  | .null => 1
  | .bool _ => 1
  | .num _ => 1
  | .str _ => 1
  | .arr xs => 1 + fitems xs
  | .obj es => 1 + fents es

def fitems : List JVal → Nat
  | [] => 0
  | x :: xs => 1 + fsize x + fitems xs

def fents : List (List Nat × JVal) → Nat
  | [] => 0
  | (_, v) :: es => 1 + fsize v + fents es
end

/-- A continuation in front of which a serialized number still parses to
the same integer: empty, or headed by a code point that extends neither the
digit run nor a float form. -/
def numStop : List Nat → Bool
  | [] => true
  | c :: _ =>
    if 48 ≤ c ∧ c ≤ 57 then false
    else if c = 46 ∨ c = 101 ∨ c = 69 then false
    else true

/-! ## Whitespace-skipping lemmas -/

theorem skipWs_cons_of_ws (c : Nat) (t : List Nat)
    (h : c = 32 ∨ c = 9 ∨ c = 10 ∨ c = 13) : skipWs (c :: t) = skipWs t := by
  rcases h with h | h | h | h <;> subst h <;> simp [skipWs]

theorem skipWs_cons_of_not_ws (c : Nat) (t : List Nat)
    (h : ¬ (c = 32 ∨ c = 9 ∨ c = 10 ∨ c = 13)) : skipWs (c :: t) = c :: t := by
  have h32 : c ≠ 32 := fun hc => h (Or.inl hc)
  have h9 : c ≠ 9 := fun hc => h (Or.inr (Or.inl hc))
  have h10 : c ≠ 10 := fun hc => h (Or.inr (Or.inr (Or.inl hc)))
  have h13 : c ≠ 13 := fun hc => h (Or.inr (Or.inr (Or.inr hc)))
  simp [skipWs, h32, h9, h10, h13]

theorem skipWs_replicate32 (n : Nat) (t : List Nat) :
    skipWs (List.replicate n 32 ++ t) = skipWs t := by
  induction n with
  | zero => simp
  | succ n ih => rw [List.replicate_succ, List.cons_append,
      skipWs_cons_of_ws 32 _ (Or.inl rfl), ih]

theorem skipWs_pad (l : Nat) (t : List Nat) : skipWs (10 :: (pad l ++ t)) = skipWs t := by
  rw [skipWs_cons_of_ws 10 _ (by omega), pad, skipWs_replicate32]

/-! ## Decimal round-trip lemmas -/

theorem natDecAux_fuel : ∀ f g n : Nat, n < f → n < g → natDecAux f n = natDecAux g n := by
  intro f
  induction f with
  | zero => intro g n hf; omega
  | succ f ih =>
    intro g n hf hg
    cases g with
    | zero => omega
    | succ g =>
      by_cases hn : n < 10
      · simp [natDecAux, hn]
      · have h1 : n / 10 < n := Nat.div_lt_self (by omega) (by omega)
        simp only [natDecAux, if_neg hn]
        rw [ih g (n / 10) (by omega) (by omega)]

theorem natDec_ge10 (n : Nat) (h : 10 ≤ n) :
    natDec n = natDec (n / 10) ++ [48 + n % 10] := by
  have h1 : n / 10 < n := Nat.div_lt_self (by omega) (by omega)
  rw [natDec, natDec, natDecAux, if_neg (by omega)]
  rw [natDecAux_fuel n (n / 10 + 1) (n / 10) (by omega) (by omega)]

theorem natDec_lt10 (n : Nat) (h : n < 10) : natDec n = [48 + n] := by
  rw [natDec, natDecAux, if_pos h]

theorem natDec_head : ∀ n : Nat, ∃ c t, natDec n = c :: t ∧ 48 ≤ c ∧ c ≤ 57 ∧
    (0 < n → 49 ≤ c) := by
  intro n
  induction n using Nat.strong_induction_on with
  | _ n ih =>
    by_cases hn : n < 10
    · exact ⟨48 + n, [], natDec_lt10 n hn, by omega, by omega, by omega⟩
    · have h1 : n / 10 < n := Nat.div_lt_self (by omega) (by omega)
      obtain ⟨c, t, hct, hc1, hc2, hc3⟩ := ih (n / 10) h1
      refine ⟨c, t ++ [48 + n % 10], ?_, hc1, hc2, fun _ => hc3 (by omega)⟩
      rw [natDec_ge10 n (by omega), hct]
      simp

theorem parseDigits_stop (s : List Nat) (acc : Nat)
    (h : ∀ c t, s = c :: t → ¬ (48 ≤ c ∧ c ≤ 57)) : parseDigits s acc = (acc, s) := by
  cases s with
  | nil => rfl
  | cons c t => rw [parseDigits, if_neg (h c t rfl)]

theorem parseDigits_natDec : ∀ n acc rest,
    parseDigits (natDec n ++ rest) acc
      = parseDigits rest (acc * 10 ^ (natDec n).length + n) := by
  intro n
  induction n using Nat.strong_induction_on with
  | _ n ih =>
    intro acc rest
    by_cases hn : n < 10
    · rw [natDec_lt10 n hn, List.cons_append, List.nil_append, parseDigits,
        if_pos (by omega)]
      congr 1
      simp only [List.length_singleton, pow_one]
      omega
    · have h1 : n / 10 < n := Nat.div_lt_self (by omega) (by omega)
      rw [natDec_ge10 n (by omega), List.append_assoc, List.cons_append, List.nil_append,
        ih (n / 10) h1 acc ((48 + n % 10) :: rest)]
      rw [parseDigits, if_pos (by omega)]
      simp only [List.length_append, List.length_singleton]
      congr 1
      have h48 : 48 + n % 10 - 48 = n % 10 := by omega
      rw [h48, pow_succ]
      have hdm : 10 * (n / 10) + n % 10 = n := Nat.div_add_mod n 10
      set K := 10 ^ (natDec (n / 10)).length with hK
      ring_nf
      omega

/-! ## Number round-trip -/

theorem numStop_headFloatish (rest : List Nat) (h : numStop rest = true) :
    headFloatish rest = false := by
  cases rest with
  | nil => rfl
  | cons c t =>
    rw [numStop] at h
    split_ifs at h with h1 h2
    simp only [headFloatish, Bool.or_eq_false_iff, beq_eq_false_iff_ne]
    exact ⟨⟨fun hc => h2 (Or.inl hc), fun hc => h2 (Or.inr (Or.inl hc))⟩,
      fun hc => h2 (Or.inr (Or.inr hc))⟩

theorem numStop_digits (rest : List Nat) (h : numStop rest = true) :
    ∀ c t, rest = c :: t → ¬ (48 ≤ c ∧ c ≤ 57) := by
  intro c t hct
  subst hct
  rw [numStop] at h
  split_ifs at h with h1 h2
  exact h1

theorem parseUNum_natDec (n : Nat) (rest : List Nat) (h : numStop rest = true) :
    parseUNum (natDec n ++ rest) = .ok (n, rest) := by
  by_cases hn : n = 0
  · subst hn
    rw [natDec_lt10 0 (by omega)]
    rw [show ([48 + 0] : List Nat) ++ rest = 48 :: rest by simp]
    rw [parseUNum, if_pos rfl, numStop_headFloatish rest h]
    simp
  · obtain ⟨c, t, hct, hc1, hc2, hc3⟩ := natDec_head n
    have hc49 : 49 ≤ c := hc3 (by omega)
    rw [hct, List.cons_append, parseUNum, if_neg (by omega), if_pos (by omega),
      ← List.cons_append, ← hct, parseDigits_natDec n 0 rest,
      parseDigits_stop rest _ (numStop_digits rest h)]
    simp [numStop_headFloatish rest h]

theorem parseIntNum_dumpInt (z : Int) (rest : List Nat) (h : numStop rest = true) :
    parseIntNum (dumpInt z ++ rest) = .ok (z, rest) := by
  by_cases hz : z < 0
  · rw [dumpInt, if_pos hz, List.cons_append, parseIntNum,
      parseUNum_natDec (-z).toNat rest h]
    simp [Int.toNat_of_nonneg (show (0 : Int) ≤ -z from by omega)]
  · rw [dumpInt, if_neg hz]
    obtain ⟨c, t, hct, hc1, hc2, _⟩ := natDec_head z.toNat
    have hc45 : c ≠ 45 := by intro hc; omega
    rw [hct, List.cons_append]
    rw [show parseIntNum (c :: (t ++ rest))
        = (match parseUNum (c :: (t ++ rest)) with
           | .ok (n, r) => .ok ((n : Int), r)
           | .error e => .error e) from by
      rw [parseIntNum.eq_def]
      split
      · rename_i r heq
        simp only [List.cons.injEq] at heq
        omega
      · rfl]
    rw [← List.cons_append, ← hct, parseUNum_natDec z.toNat rest h]
    simp [Int.toNat_of_nonneg (not_lt.mp hz)]

/-! ## String round-trip -/

theorem hexVal_hexDig (d : Nat) (h : d < 16) : hexVal (hexDig d) = some d := by
  rw [hexDig]
  split_ifs with h1
  · rw [hexVal, if_pos (by omega)]
    simp only [Option.some.injEq]
    omega
  · rw [hexVal, if_neg (by omega), if_pos (by omega)]
    simp only [Option.some.injEq]
    omega

theorem hexVal_some_lt (x a : Nat) (h : hexVal x = some a) : a < 16 := by
  rw [hexVal] at h
  split_ifs at h <;> (simp only [Option.some.injEq] at h; omega)

theorem unescape_some_lt (c u : Nat) (h : unescape c = some u) : u < 128 := by
  rw [unescape] at h
  split_ifs at h <;> (simp only [Option.some.injEq] at h; omega)

theorem scalarBMP_bounds (c : Nat) (h : scalarBMP c = true) :
    c < 65536 ∧ ¬ (55296 ≤ c ∧ c < 57344) := by
  rw [scalarBMP] at h
  split_ifs at h with h1 h2
  · omega
  · omega

theorem parseStr_encChar (c : Nat) (hok : scalarBMP c = true) (t : List Nat) :
    parseStr (encChar c ++ t) = withChar c (parseStr t) := by
  obtain ⟨hlt, hsur⟩ := scalarBMP_bounds c hok
  rw [encChar]
  split_ifs with h34 h92 h8 h12 h10 h13 h9 hprint
  · subst h34; simp [parseStr, parseEsc, unescape]
  · subst h92; simp [parseStr, parseEsc, unescape]
  · subst h8; simp [parseStr, parseEsc, unescape]
  · subst h12; simp [parseStr, parseEsc, unescape]
  · subst h10; simp [parseStr, parseEsc, unescape]
  · subst h13; simp [parseStr, parseEsc, unescape]
  · subst h9; simp [parseStr, parseEsc, unescape]
  · rw [show ([c] : List Nat) ++ t = c :: t by simp, parseStr, if_neg h34, if_neg h92,
      if_neg (by omega), if_neg (by omega), if_neg (by omega)]
  · rw [toHex4]
    rw [show (92 :: 117 :: [hexDig (c / 4096 % 16), hexDig (c / 256 % 16),
        hexDig (c / 16 % 16), hexDig (c % 16)]) ++ t
      = 92 :: 117 :: hexDig (c / 4096 % 16) :: hexDig (c / 256 % 16) ::
        hexDig (c / 16 % 16) :: hexDig (c % 16) :: t by simp]
    rw [show parseStr (92 :: 117 :: hexDig (c / 4096 % 16) :: hexDig (c / 256 % 16) ::
        hexDig (c / 16 % 16) :: hexDig (c % 16) :: t)
      = parseEsc (117 :: hexDig (c / 4096 % 16) :: hexDig (c / 256 % 16) ::
        hexDig (c / 16 % 16) :: hexDig (c % 16) :: t) from by
      rw [parseStr]
      simp]
    have hval : 4096 * (c / 4096 % 16) + 256 * (c / 256 % 16) + 16 * (c / 16 % 16) + c % 16
        = c := by omega
    have hhex : hex4 (hexDig (c / 4096 % 16)) (hexDig (c / 256 % 16))
        (hexDig (c / 16 % 16)) (hexDig (c % 16)) = some c := by
      rw [hex4, hexVal_hexDig _ (Nat.mod_lt _ (by omega)),
        hexVal_hexDig _ (Nat.mod_lt _ (by omega)),
        hexVal_hexDig _ (Nat.mod_lt _ (by omega)),
        hexVal_hexDig _ (Nat.mod_lt _ (by omega))]
      exact congrArg some hval
    rw [parseEsc, hhex]
    show (if 55296 ≤ c ∧ c < 57344 then Except.error errNonBmpModel
        else withChar c (parseStr t)) = withChar c (parseStr t)
    rw [if_neg hsur]

theorem parseStr_encStr (s : List Nat) (hok : strOKb s = true) (rest : List Nat) :
    parseStr (encStr s ++ 34 :: rest) = .ok (s, rest) := by
  induction s with
  | nil =>
    rw [encStr, List.nil_append, parseStr, if_pos rfl]
  | cons c s ih =>
    rw [strOKb, List.all_cons, Bool.and_eq_true] at hok
    rw [encStr, List.append_assoc, parseStr_encChar c hok.1, ih hok.2]
    rfl

/-! ## Shape lemmas for the serializer -/

theorem numStop_cons (c : Nat) (t : List Nat) (h1 : ¬ (48 ≤ c ∧ c ≤ 57))
    (h2 : ¬ (c = 46 ∨ c = 101 ∨ c = 69)) : numStop (c :: t) = true := by
  rw [numStop, if_neg h1, if_neg h2]

theorem dumpVal_head (v : JVal) (l : Nat) : ∃ c t, dumpVal v l = c :: t ∧
    ¬ (c = 32 ∨ c = 9 ∨ c = 10 ∨ c = 13) ∧ c ≠ 93 ∧ c ≠ 125 := by
  cases v with
  | null =>
    refine ⟨110, strN "ull", ?_, by omega, by omega, by omega⟩
    rw [show dumpVal .null l = strN "null" from by simp [dumpVal]]
    decide
  | bool b =>
    cases b with
    | true =>
      refine ⟨116, strN "rue", ?_, by omega, by omega, by omega⟩
      rw [show dumpVal (.bool true) l = strN "true" from by simp [dumpVal]]
      decide
    | false =>
      refine ⟨102, strN "alse", ?_, by omega, by omega, by omega⟩
      rw [show dumpVal (.bool false) l = strN "false" from by simp [dumpVal]]
      decide
  | num n =>
    by_cases hz : n < 0
    · refine ⟨45, natDec (-n).toNat, ?_, by omega, by omega, by omega⟩
      simp [dumpVal, dumpInt, hz]
    · obtain ⟨c, t, hct, h1, h2, _⟩ := natDec_head n.toNat
      refine ⟨c, t, ?_, by omega, by omega, by omega⟩
      simp [dumpVal, dumpInt, hz, hct]
  | str s =>
    refine ⟨34, encStr s ++ [34], ?_, by omega, by omega, by omega⟩
    simp [dumpVal]
  | arr xs =>
    cases xs with
    | nil =>
      refine ⟨91, [93], ?_, by omega, by omega, by omega⟩
      simp [dumpVal]
    | cons x xs =>
      refine ⟨91, 10 :: pad (l + 1) ++ dumpVal x (l + 1) ++ dumpArrTail xs l,
        ?_, by omega, by omega, by omega⟩
      simp [dumpVal]
  | obj es =>
    cases es with
    | nil =>
      refine ⟨123, [125], ?_, by omega, by omega, by omega⟩
      simp [dumpVal]
    | cons e es =>
      refine ⟨123, 10 :: pad (l + 1) ++ dumpEntry e (l + 1) ++ dumpObjTail es l,
        ?_, by omega, by omega, by omega⟩
      simp [dumpVal]

theorem skipWs_dumpVal (v : JVal) (l : Nat) (rest : List Nat) :
    skipWs (dumpVal v l ++ rest) = dumpVal v l ++ rest := by
  obtain ⟨c, t, hct, hws, _, _⟩ := dumpVal_head v l
  rw [hct, List.cons_append, skipWs_cons_of_not_ws c _ hws]

/-! ## Key-membership and insertion lemmas -/

theorem keyMem_append (k : List Nat) (a b : List (List Nat × JVal)) :
    keyMem k (a ++ b) = (keyMem k a || keyMem k b) := by
  induction a with
  | nil => simp [keyMem]
  | cons e a ih =>
    obtain ⟨k2, v2⟩ := e
    simp [keyMem, ih, Bool.or_assoc]

theorem insertKV_not_mem (acc : List (List Nat × JVal)) (k : List Nat) (v : JVal)
    (h : keyMem k acc = false) : insertKV acc k v = acc ++ [(k, v)] := by
  induction acc with
  | nil => rfl
  | cons e acc ih =>
    obtain ⟨k2, v2⟩ := e
    rw [keyMem, Bool.or_eq_false_iff, beq_eq_false_iff_ne] at h
    rw [insertKV, if_neg h.1, ih h.2, List.cons_append]

theorem nodupKeys_split (acc : List (List Nat × JVal)) (k : List Nat) (v : JVal)
    (es : List (List Nat × JVal)) (h : nodupKeys (acc ++ (k, v) :: es) = true) :
    keyMem k acc = false := by
  induction acc with
  | nil => rfl
  | cons e acc ih =>
    obtain ⟨k2, v2⟩ := e
    rw [List.cons_append, nodupKeys, Bool.and_eq_true, Bool.not_eq_true',
      keyMem_append, Bool.or_eq_false_iff] at h
    obtain ⟨⟨hm1, hm2⟩, hnd⟩ := h
    rw [keyMem, Bool.or_eq_false_iff] at hm2 ⊢
    refine ⟨?_, ih hnd⟩
    rw [beq_eq_false_iff_ne] at hm2 ⊢
    exact fun hk => hm2.1 hk.symm

theorem keyMem_insertKV (q : List Nat) (acc : List (List Nat × JVal)) (k : List Nat)
    (v : JVal) : keyMem q (insertKV acc k v) = (keyMem q acc || k == q) := by
  induction acc with
  | nil => simp [insertKV, keyMem]
  | cons e acc ih =>
    obtain ⟨k2, v2⟩ := e
    by_cases hk : k2 = k
    · subst hk
      rw [insertKV, if_pos rfl, keyMem, keyMem]
      cases hq : (k2 == q) <;> simp
    · rw [insertKV, if_neg hk, keyMem, keyMem, ih, Bool.or_assoc]

theorem nodupKeys_insertKV (acc : List (List Nat × JVal)) (k : List Nat) (v : JVal)
    (h : nodupKeys acc = true) : nodupKeys (insertKV acc k v) = true := by
  induction acc with
  | nil => rfl
  | cons e acc ih =>
    obtain ⟨k2, v2⟩ := e
    rw [nodupKeys, Bool.and_eq_true, Bool.not_eq_true'] at h
    by_cases hk : k2 = k
    · subst hk
      rw [insertKV, if_pos rfl, nodupKeys, Bool.and_eq_true, Bool.not_eq_true']
      exact h
    · rw [insertKV, if_neg hk, nodupKeys, Bool.and_eq_true, Bool.not_eq_true',
        keyMem_insertKV]
      refine ⟨?_, ih h.2⟩
      rw [Bool.or_eq_false_iff, beq_eq_false_iff_ne]
      exact ⟨h.1, fun hkq => hk hkq.symm⟩

theorem valOKItems_append (a b : List JVal) :
    valOKItems (a ++ b) = (valOKItems a && valOKItems b) := by
  induction a with
  | nil => simp [valOKItems]
  | cons x a ih => simp [valOKItems, ih, Bool.and_assoc]

theorem valOKEntries_append (a b : List (List Nat × JVal)) :
    valOKEntries (a ++ b) = (valOKEntries a && valOKEntries b) := by
  induction a with
  | nil => simp [valOKEntries]
  | cons e a ih =>
    obtain ⟨k, v⟩ := e
    simp [valOKEntries, ih, Bool.and_assoc]

theorem valOKEntries_insertKV (acc : List (List Nat × JVal)) (k : List Nat) (v : JVal)
    (ha : valOKEntries acc = true) (hk : strOKb k = true) (hv : valOK v = true) :
    valOKEntries (insertKV acc k v) = true := by
  induction acc with
  | nil => simp [insertKV, valOKEntries, hk, hv]
  | cons e acc ih =>
    obtain ⟨k2, v2⟩ := e
    rw [valOKEntries, Bool.and_eq_true, Bool.and_eq_true] at ha
    by_cases hne : k2 = k
    · subst hne
      rw [insertKV, if_pos rfl, valOKEntries]
      simp [ha.1.1, hv, ha.2]
    · rw [insertKV, if_neg hne, valOKEntries]
      simp [ha.1.1, ha.1.2, ih ha.2]

/-! ## Fuel adequacy -/

mutual
theorem fsize_le : ∀ (v : JVal) (l : Nat), fsize v ≤ 2 * (dumpVal v l).length
  | .null, l => by
    rw [show dumpVal .null l = strN "null" from by simp [dumpVal]]
    rw [fsize]
    decide
  | .bool true, l => by
    rw [show dumpVal (.bool true) l = strN "true" from by simp [dumpVal]]
    rw [fsize]
    decide
  | .bool false, l => by
    rw [show dumpVal (.bool false) l = strN "false" from by simp [dumpVal]]
    rw [fsize]
    decide
  | .num n, l => by
    rw [fsize]
    by_cases hz : n < 0
    · simp [dumpVal, dumpInt, hz]
      omega
    · obtain ⟨c, t, hct, _, _, _⟩ := natDec_head n.toNat
      simp [dumpVal, dumpInt, hz, hct]
      omega
  | .str s, l => by
    rw [fsize]
    simp [dumpVal]
    omega
  | .arr [], l => by
    rw [fsize, fitems]
    simp [dumpVal]
  | .arr (x :: xs), l => by
    have h1 := fsize_le x (l + 1)
    have h2 := fitems_le xs l
    rw [fsize, fitems]
    simp only [dumpVal, List.length_cons, List.length_append]
    omega
  | .obj [], l => by
    rw [fsize, fents]
    simp [dumpVal]
  | .obj (e :: es), l => by
    have h1 := fentry_le e (l + 1)
    have h2 := fents_le es l
    rw [fsize, fents]
    simp only [dumpVal, List.length_cons, List.length_append]
    omega

theorem fentry_le : ∀ (e : List Nat × JVal) (l : Nat),
    1 + fsize e.2 ≤ 2 * (dumpEntry e l).length
  | (k, v), l => by
    have h1 := fsize_le v l
    simp only [dumpEntry, List.length_cons, List.length_append]
    omega

theorem fitems_le : ∀ (xs : List JVal) (l : Nat), fitems xs ≤ 2 * (dumpArrTail xs l).length
  | [], l => by rw [fitems]; omega
  | y :: ys, l => by
    have h1 := fsize_le y (l + 1)
    have h2 := fitems_le ys l
    rw [fitems]
    simp only [dumpArrTail, List.length_cons, List.length_append]
    omega

theorem fents_le : ∀ (es : List (List Nat × JVal)) (l : Nat),
    fents es ≤ 2 * (dumpObjTail es l).length
  | [], l => by rw [fents]; omega
  | e :: es, l => by
    have h1 := fentry_le e (l + 1)
    have h2 := fents_le es l
    rw [show fents (e :: es) = 1 + fsize e.2 + fents es from by
      obtain ⟨k, v⟩ := e; rw [fents]]
    simp only [dumpObjTail, List.length_cons, List.length_append]
    omega
end

/-! ## The scanner's string invariant -/

theorem hex4_some_lt : ∀ a b c d n, hex4 a b c d = some n → n < 65536 := by
  intro a b c d n h
  rw [hex4] at h
  cases ha : hexVal a with
  | none => rw [ha] at h; simp at h
  | some x =>
    rw [ha] at h
    cases hb : hexVal b with
    | none => rw [hb] at h; simp at h
    | some y =>
      rw [hb] at h
      cases hc : hexVal c with
      | none => rw [hc] at h; simp at h
      | some z =>
        rw [hc] at h
        cases hd : hexVal d with
        | none => rw [hd] at h; simp at h
        | some w =>
          rw [hd] at h
          simp only [Option.some.injEq] at h
          have := hexVal_some_lt a x ha
          have := hexVal_some_lt b y hb
          have := hexVal_some_lt c z hc
          have := hexVal_some_lt d w hd
          omega

theorem parse_strOK : ∀ n s cs r, s.length ≤ n →
    (parseStr s = .ok (cs, r) → strOKb cs = true)
    ∧ (parseEsc s = .ok (cs, r) → strOKb cs = true) := by
  intro n
  induction n with
  | zero =>
    intro s cs r hlen
    have hs : s = [] := List.length_eq_zero.mp (by omega)
    subst hs
    exact ⟨fun h => by rw [parseStr] at h; exact Except.noConfusion h,
      fun h => by rw [parseEsc] at h; exact Except.noConfusion h⟩
  | succ n ih =>
    intro s cs r hlen
    cases s with
    | nil =>
      exact ⟨fun h => by rw [parseStr] at h; exact Except.noConfusion h,
        fun h => by rw [parseEsc] at h; exact Except.noConfusion h⟩
    | cons c rest =>
      have hrest : rest.length ≤ n := by simp at hlen; omega
      constructor
      · intro h
        rw [parseStr] at h
        split_ifs at h with h34 h92 hctl hsur hbig
        · simp only [Except.ok.injEq, Prod.mk.injEq] at h
          obtain ⟨h1, h2⟩ := h
          rw [← h1]
          decide
        · exact (ih rest cs r hrest).2 h
        · cases hp : parseStr rest with
          | error e => rw [hp] at h; exact absurd h (by simp [withChar])
          | ok p =>
            obtain ⟨cs2, r2⟩ := p
            rw [hp] at h
            simp only [withChar, Except.ok.injEq, Prod.mk.injEq] at h
            obtain ⟨h1, h2⟩ := h
            rw [← h1, strOKb, List.all_cons, Bool.and_eq_true]
            refine ⟨?_, (ih rest cs2 r2 hrest).1 hp⟩
            rw [scalarBMP]
            split_ifs with hb1 hb2
            · rfl
            · rfl
            · exact absurd (⟨by omega, by omega⟩ : 57344 ≤ c ∧ c < 65536) hb2
      · intro h
        rw [parseEsc.eq_def] at h
        split at h
        · rename_i a1 a2 a3 a4 rest4 heq
          cases hx : hex4 a1 a2 a3 a4 with
          | none => rw [hx] at h; exact absurd h (by simp)
          | some m =>
            rw [hx] at h
            rw [show (match some m with
                | some k => if 55296 ≤ k ∧ k < 57344 then Except.error errNonBmpModel
                    else withChar k (parseStr rest4)
                | none => Except.error errBadHex)
              = if 55296 ≤ m ∧ m < 57344 then Except.error errNonBmpModel
                  else withChar m (parseStr rest4) from rfl] at h
            split_ifs at h with hs1
            cases hp : parseStr rest4 with
            | error e => rw [hp] at h; exact absurd h (by simp [withChar])
            | ok p =>
              obtain ⟨cs2, r2⟩ := p
              rw [hp] at h
              simp only [withChar, Except.ok.injEq, Prod.mk.injEq] at h
              obtain ⟨h1, h2⟩ := h
              have hlen4 : rest4.length ≤ n := by
                have := congrArg List.length heq
                simp at this
                omega
              rw [← h1, strOKb, List.all_cons, Bool.and_eq_true]
              refine ⟨?_, (ih rest4 cs2 r2 hlen4).1 hp⟩
              have hm : m < 65536 := hex4_some_lt a1 a2 a3 a4 m hx
              rw [scalarBMP]
              split_ifs with hb1 hb2
              · rfl
              · rfl
              · exact absurd (⟨by omega, by omega⟩ : 57344 ≤ m ∧ m < 65536) hb2
        · rename_i heq
          exact Except.noConfusion h
        · rename_i cm restm hne heq
          cases hu : unescape cm with
          | none => rw [hu] at h; exact absurd h (by simp)
          | some u =>
            rw [hu] at h
            rw [show (match some u with
                | some w => withChar w (parseStr restm)
                | none => Except.error errBadEscape)
              = withChar u (parseStr restm) from rfl] at h
            cases hp : parseStr restm with
            | error e => rw [hp] at h; exact absurd h (by simp [withChar])
            | ok p =>
              obtain ⟨cs2, r2⟩ := p
              rw [hp] at h
              simp only [withChar, Except.ok.injEq, Prod.mk.injEq] at h
              obtain ⟨h1, h2⟩ := h
              have hlen2 : restm.length ≤ n := by
                have := congrArg List.length heq
                simp at this
                omega
              rw [← h1, strOKb, List.all_cons, Bool.and_eq_true]
              refine ⟨?_, (ih restm cs2 r2 hlen2).1 hp⟩
              have hu128 : u < 128 := unescape_some_lt cm u hu
              rw [scalarBMP, if_pos (by omega)]

theorem parseStr_strOK (s cs r : List Nat) (h : parseStr s = .ok (cs, r)) :
    strOKb cs = true :=
  (parse_strOK s.length s cs r le_rfl).1 h

/-! ## Every parsed value satisfies the invariant -/

/-! ## Unfolding equations for the scanner -/

theorem parseF_zero (m : PMode) (s : List Nat) : parseF 0 m s = .error errFuel := rfl

theorem parseF_top (f : Nat) (s : List Nat) :
    parseF (f + 1) .top s = (match s with
      | [] => .error errExpValue
      | 34 :: rest => (parseStr rest).map (fun p => (.str p.1, p.2))
      | 123 :: rest =>
        (match skipWs rest with
          | 125 :: r2 => .ok (.obj [], r2)
          | r => parseF f (.objItems []) r)
      | 91 :: rest =>
        (match skipWs rest with
          | 93 :: r2 => .ok (.arr [], r2)
          | r => parseF f (.arrItems []) r)
      | 110 :: 117 :: 108 :: 108 :: rest => .ok (.null, rest)
      | 116 :: 114 :: 117 :: 101 :: rest => .ok (.bool true, rest)
      | 102 :: 97 :: 108 :: 115 :: 101 :: rest => .ok (.bool false, rest)
      | s => (parseIntNum s).map (fun p => (.num p.1, p.2))) := rfl

theorem parseF_arr (f : Nat) (acc : List JVal) (s : List Nat) :
    parseF (f + 1) (.arrItems acc) s = (match parseF f .top s with
      | .error e => .error e
      | .ok (v, r1) =>
        match skipWs r1 with
        | 93 :: r3 => .ok (.arr (acc ++ [v]), r3)
        | 44 :: r3 => parseF f (.arrItems (acc ++ [v])) (skipWs r3)
        | _ => .error errExpCommaDelim) := rfl

theorem parseF_obj (f : Nat) (acc : List (List Nat × JVal)) (s : List Nat) :
    parseF (f + 1) (.objItems acc) s = (match s with
      | 34 :: rest =>
        (match parseStr rest with
          | .error e => .error e
          | .ok (k, r1) =>
            match skipWs r1 with
            | 58 :: r3 =>
              (match parseF f .top (skipWs r3) with
                | .error e => .error e
                | .ok (v, r4) =>
                  match skipWs r4 with
                  | 125 :: r6 => .ok (.obj (insertKV acc k v), r6)
                  | 44 :: r6 => parseF f (.objItems (insertKV acc k v)) (skipWs r6)
                  | _ => .error errExpCommaDelim)
            | _ => .error errExpColonDelim)
      | _ => .error errExpPropName) := rfl

/-! ## Every parsed value satisfies the invariant -/

set_option maxHeartbeats 2000000 in
theorem parseF_valOK : ∀ f : Nat,
    (∀ s v r, parseF f .top s = .ok (v, r) → valOK v = true)
    ∧ (∀ acc s v r, valOKItems acc = true →
        parseF f (.arrItems acc) s = .ok (v, r) → valOK v = true)
    ∧ (∀ acc s v r, valOKEntries acc = true → nodupKeys acc = true →
        parseF f (.objItems acc) s = .ok (v, r) → valOK v = true) := by
  intro f
  induction f with
  | zero =>
    exact ⟨fun s v r h => Except.noConfusion h,
      fun acc s v r _ h => Except.noConfusion h,
      fun acc s v r _ _ h => Except.noConfusion h⟩
  | succ f ih =>
    obtain ⟨ih1, ih2, ih3⟩ := ih
    refine ⟨?_, ?_, ?_⟩
    · intro s v r h
      rw [parseF_top] at h
      split at h
      · exact Except.noConfusion h
      · rename_i rest
        cases hp : parseStr rest with
        | error e =>
          rw [hp] at h
          exact Except.noConfusion h
        | ok p =>
          obtain ⟨cs, r2⟩ := p
          rw [hp] at h
          replace h : Except.ok ((JVal.str cs : JVal), r2) = Except.ok (v, r) := h
          simp only [Except.ok.injEq, Prod.mk.injEq] at h
          obtain ⟨h1, h2⟩ := h
          rw [← h1]
          rw [show valOK (.str cs) = strOKb cs from by simp [valOK]]
          exact parseStr_strOK rest cs r2 hp
      · rename_i rest
        split at h
        · simp only [Except.ok.injEq, Prod.mk.injEq] at h
          obtain ⟨h1, h2⟩ := h
          rw [← h1]
          decide
        · exact ih3 [] _ v r (by decide) (by decide) h
      · rename_i rest
        split at h
        · simp only [Except.ok.injEq, Prod.mk.injEq] at h
          obtain ⟨h1, h2⟩ := h
          rw [← h1]
          decide
        · exact ih2 [] _ v r (by decide) h
      · simp only [Except.ok.injEq, Prod.mk.injEq] at h
        obtain ⟨h1, h2⟩ := h
        rw [← h1]
        decide
      · simp only [Except.ok.injEq, Prod.mk.injEq] at h
        obtain ⟨h1, h2⟩ := h
        rw [← h1]
        decide
      · simp only [Except.ok.injEq, Prod.mk.injEq] at h
        obtain ⟨h1, h2⟩ := h
        rw [← h1]
        decide
      · cases hp : parseIntNum s with
        | error e =>
          rw [hp] at h
          exact Except.noConfusion h
        | ok p =>
          obtain ⟨nn, r2⟩ := p
          rw [hp] at h
          replace h : Except.ok ((JVal.num nn : JVal), r2) = Except.ok (v, r) := h
          simp only [Except.ok.injEq, Prod.mk.injEq] at h
          obtain ⟨h1, h2⟩ := h
          rw [← h1]
          simp [valOK]
    · intro acc s v r hacc h
      rw [parseF_arr] at h
      split at h
      · exact Except.noConfusion h
      · rename_i x r1 heq
        have hx : valOK x = true := ih1 s x r1 heq
        have hitems : valOKItems (acc ++ [x]) = true := by
          rw [valOKItems_append, hacc,
            show valOKItems [x] = (valOK x && true) from by simp [valOKItems], hx]
          rfl
        split at h
        · simp only [Except.ok.injEq, Prod.mk.injEq] at h
          obtain ⟨h1, h2⟩ := h
          rw [← h1]
          rw [show valOK (.arr (acc ++ [x])) = valOKItems (acc ++ [x]) from by simp [valOK]]
          exact hitems
        · exact ih2 (acc ++ [x]) _ v r hitems h
        · exact Except.noConfusion h
    · intro acc s v r hacc hnd h
      rw [parseF_obj] at h
      split at h
      · rename_i rest
        cases hkp : parseStr rest with
        | error e =>
          rw [hkp] at h
          exact Except.noConfusion h
        | ok p =>
          obtain ⟨k, r1⟩ := p
          rw [hkp] at h
          replace h : (match skipWs r1 with
            | 58 :: r3 =>
              (match parseF f .top (skipWs r3) with
                | .error e => .error e
                | .ok (v, r4) =>
                  match skipWs r4 with
                  | 125 :: r6 => .ok (JVal.obj (insertKV acc k v), r6)
                  | 44 :: r6 => parseF f (.objItems (insertKV acc k v)) (skipWs r6)
                  | _ => .error errExpCommaDelim)
            | _ => .error errExpColonDelim) = Except.ok (v, r) := h
          have hk : strOKb k = true := parseStr_strOK rest k r1 hkp
          split at h
          · rename_i r3 hceq
            cases hvp : parseF f .top (skipWs r3) with
            | error e =>
              rw [hvp] at h
              exact Except.noConfusion h
            | ok p2 =>
              obtain ⟨v2, r4⟩ := p2
              rw [hvp] at h
              have hv2 : valOK v2 = true := ih1 _ v2 r4 hvp
              replace h : (match skipWs r4 with
                | 125 :: r6 => .ok (JVal.obj (insertKV acc k v2), r6)
                | 44 :: r6 => parseF f (.objItems (insertKV acc k v2)) (skipWs r6)
                | _ => .error errExpCommaDelim) = Except.ok (v, r) := h
              split at h
              · simp only [Except.ok.injEq, Prod.mk.injEq] at h
                obtain ⟨h1, h2⟩ := h
                rw [← h1]
                rw [show valOK (.obj (insertKV acc k v2))
                    = (nodupKeys (insertKV acc k v2) && valOKEntries (insertKV acc k v2))
                    from by simp [valOK]]
                rw [nodupKeys_insertKV acc k v2 hnd,
                  valOKEntries_insertKV acc k v2 hacc hk hv2]
                rfl
              · exact ih3 (insertKV acc k v2) _ v r
                  (valOKEntries_insertKV acc k v2 hacc hk hv2)
                  (nodupKeys_insertKV acc k v2 hnd) h
              · exact Except.noConfusion h
          · exact Except.noConfusion h
      · exact Except.noConfusion h

theorem parseF_top_num (f c : Nat) (t : List Nat) (h34 : c ≠ 34) (h123 : c ≠ 123)
    (h91 : c ≠ 91) (h110 : c ≠ 110) (h116 : c ≠ 116) (h102 : c ≠ 102) :
    parseF (f + 1) .top (c :: t)
      = (parseIntNum (c :: t)).map (fun p => (.num p.1, p.2)) := by
  rw [parseF_top]
  split
  all_goals try rfl
  all_goals rename_i heq
  all_goals exact absurd heq (by simp [h34, h123, h91, h110, h116, h102])

/-! ## Round-trip: the serializer's output re-parses to the same value -/

theorem fsize_pos : ∀ v : JVal, 1 ≤ fsize v := by
  intro v
  cases v <;> rw [fsize] <;> omega

theorem numStop_arrTail (xs : List JVal) (l : Nat) (rest : List Nat) :
    numStop (dumpArrTail xs l ++ rest) = true := by
  cases xs with
  | nil => rw [dumpArrTail]; exact numStop_cons 10 _ (by omega) (by omega)
  | cons y ys => rw [dumpArrTail]; exact numStop_cons 44 _ (by omega) (by omega)

theorem numStop_objTail (es : List (List Nat × JVal)) (l : Nat) (rest : List Nat) :
    numStop (dumpObjTail es l ++ rest) = true := by
  cases es with
  | nil => rw [dumpObjTail]; exact numStop_cons 10 _ (by omega) (by omega)
  | cons e es => rw [dumpObjTail]; exact numStop_cons 44 _ (by omega) (by omega)

theorem dumpInt_head (n : Int) : ∃ c t, dumpInt n = c :: t ∧ (c = 45 ∨ (48 ≤ c ∧ c ≤ 57)) := by
  by_cases hz : n < 0
  · exact ⟨45, natDec (-n).toNat, by rw [dumpInt, if_pos hz], Or.inl rfl⟩
  · obtain ⟨c, t, hct, h1, h2, _⟩ := natDec_head n.toNat
    exact ⟨c, t, by rw [dumpInt, if_neg hz, hct], Or.inr ⟨h1, h2⟩⟩

theorem parseF_arr_ok (f : Nat) (acc : List JVal) (s : List Nat) (x : JVal) (T : List Nat)
    (hx : parseF f .top s = .ok (x, T)) :
    parseF (f + 1) (.arrItems acc) s = (match skipWs T with
      | 93 :: r3 => .ok (.arr (acc ++ [x]), r3)
      | 44 :: r3 => parseF f (.arrItems (acc ++ [x])) (skipWs r3)
      | _ => .error errExpCommaDelim) := by
  rw [parseF_arr, hx]

theorem parseF_obj_k (f : Nat) (acc : List (List Nat × JVal)) (rest0 k R : List Nat)
    (hkp : parseStr rest0 = .ok (k, R)) :
    parseF (f + 1) (.objItems acc) (34 :: rest0) = (match skipWs R with
      | 58 :: r3 =>
        (match parseF f .top (skipWs r3) with
          | .error e => .error e
          | .ok (v, r4) =>
            match skipWs r4 with
            | 125 :: r6 => .ok (.obj (insertKV acc k v), r6)
            | 44 :: r6 => parseF f (.objItems (insertKV acc k v)) (skipWs r6)
            | _ => .error errExpCommaDelim)
      | _ => .error errExpColonDelim) := by
  have h1 : parseF (f + 1) (.objItems acc) (34 :: rest0)
      = (match parseStr rest0 with
        | .error e => .error e
        | .ok (k, r1) =>
          match skipWs r1 with
          | 58 :: r3 =>
            (match parseF f .top (skipWs r3) with
              | .error e => .error e
              | .ok (v, r4) =>
                match skipWs r4 with
                | 125 :: r6 => .ok (.obj (insertKV acc k v), r6)
                | 44 :: r6 => parseF f (.objItems (insertKV acc k v)) (skipWs r6)
                | _ => .error errExpCommaDelim)
          | _ => .error errExpColonDelim) := rfl
  rw [h1, hkp]

theorem skipWs_dumpEntry (e : List Nat × JVal) (l : Nat) (t : List Nat) :
    skipWs (dumpEntry e l ++ t) = dumpEntry e l ++ t := by
  obtain ⟨k, v⟩ := e
  rw [dumpEntry, List.cons_append]
  exact skipWs_cons_of_not_ws 34 _ (by omega)

set_option maxHeartbeats 4000000 in
theorem parseF_dump : ∀ f : Nat,
    (∀ v l rest, valOK v = true → numStop rest = true → fsize v ≤ f →
      parseF f .top (dumpVal v l ++ rest) = .ok (v, rest))
    ∧ (∀ x xs acc l rest, valOKItems (x :: xs) = true → fitems (x :: xs) ≤ f →
      parseF f (.arrItems acc) (dumpVal x (l + 1) ++ (dumpArrTail xs l ++ rest))
        = .ok (.arr (acc ++ x :: xs), rest))
    ∧ (∀ k v2 es acc l rest, strOKb k = true → valOK v2 = true →
        valOKEntries es = true → nodupKeys (acc ++ (k, v2) :: es) = true →
        fents ((k, v2) :: es) ≤ f →
      parseF f (.objItems acc) (dumpEntry (k, v2) (l + 1) ++ (dumpObjTail es l ++ rest))
        = .ok (.obj (acc ++ (k, v2) :: es), rest)) := by
  intro f
  induction f with
  | zero =>
    refine ⟨fun v l rest _ _ hsz => absurd hsz (by have := fsize_pos v; omega),
      fun x xs acc l rest _ hsz => absurd hsz (by rw [fitems]; omega),
      fun k v2 es acc l rest _ _ _ _ hsz => absurd hsz (by rw [fents]; omega)⟩
  | succ f ih =>
    obtain ⟨ih1, ih2, ih3⟩ := ih
    refine ⟨?_, ?_, ?_⟩
    · intro v l rest hok hns hsz
      cases v with
      | null =>
        rw [show dumpVal .null l = [110, 117, 108, 108] from by
          rw [show dumpVal .null l = strN "null" from by simp [dumpVal]]
          decide]
        rfl
      | bool b =>
        cases b with
        | true =>
          rw [show dumpVal (.bool true) l = [116, 114, 117, 101] from by
            rw [show dumpVal (.bool true) l = strN "true" from by simp [dumpVal]]
            decide]
          rfl
        | false =>
          rw [show dumpVal (.bool false) l = [102, 97, 108, 115, 101] from by
            rw [show dumpVal (.bool false) l = strN "false" from by simp [dumpVal]]
            decide]
          rfl
      | num n =>
        obtain ⟨c, t, hct, hc⟩ := dumpInt_head n
        rw [show dumpVal (.num n) l = dumpInt n from by simp [dumpVal], hct, List.cons_append,
          parseF_top_num f c (t ++ rest) (by omega) (by omega) (by omega) (by omega)
            (by omega) (by omega),
          ← List.cons_append, ← hct, parseIntNum_dumpInt n rest hns]
        rfl
      | str s =>
        rw [show valOK (.str s) = strOKb s from by simp [valOK]] at hok
        rw [show dumpVal (.str s) l ++ rest = 34 :: (encStr s ++ 34 :: rest) from by
          simp [dumpVal]]
        rw [show parseF (f + 1) .top (34 :: (encStr s ++ 34 :: rest))
            = (parseStr (encStr s ++ 34 :: rest)).map (fun p => ((.str p.1 : JVal), p.2))
          from rfl]
        rw [parseStr_encStr s hok rest]
        rfl
      | arr xs =>
        cases xs with
        | nil =>
          rw [show dumpVal (.arr []) l = [91, 93] from by simp [dumpVal]]
          rfl
        | cons x xs =>
          rw [show valOK (.arr (x :: xs)) = valOKItems (x :: xs) from by simp [valOK]] at hok
          rw [show fsize (.arr (x :: xs)) = 1 + fitems (x :: xs) from by rw [fsize]] at hsz
          rw [show dumpVal (.arr (x :: xs)) l ++ rest
              = 91 :: 10 :: (pad (l + 1) ++ (dumpVal x (l + 1) ++ (dumpArrTail xs l ++ rest)))
            from by simp [dumpVal]]
          rw [show parseF (f + 1) .top
                (91 :: 10 :: (pad (l + 1) ++ (dumpVal x (l + 1) ++ (dumpArrTail xs l ++ rest))))
              = (match skipWs (10 :: (pad (l + 1)
                    ++ (dumpVal x (l + 1) ++ (dumpArrTail xs l ++ rest)))) with
                 | 93 :: r2 => Except.ok ((JVal.arr [] : JVal), r2)
                 | r => parseF f (.arrItems []) r) from rfl]
          rw [skipWs_pad, skipWs_dumpVal]
          obtain ⟨c, t2, hct, hws, h93, h125⟩ := dumpVal_head x (l + 1)
          rw [hct, List.cons_append]
          split
          · rename_i r2 heq
            exact absurd heq (by simp [h93])
          · rw [← List.cons_append, ← hct, ih2 x xs [] l rest hok (by omega),
              List.nil_append]
      | obj es =>
        cases es with
        | nil =>
          rw [show dumpVal (.obj []) l = [123, 125] from by simp [dumpVal]]
          rfl
        | cons e es =>
          obtain ⟨k, v2⟩ := e
          rw [show valOK (.obj ((k, v2) :: es))
              = (nodupKeys ((k, v2) :: es) && valOKEntries ((k, v2) :: es))
            from by simp [valOK], Bool.and_eq_true] at hok
          obtain ⟨hnd, hents⟩ := hok
          rw [show valOKEntries ((k, v2) :: es) = (strOKb k && valOK v2 && valOKEntries es)
            from by rw [valOKEntries], Bool.and_eq_true, Bool.and_eq_true] at hents
          rw [show fsize (.obj ((k, v2) :: es)) = 1 + fents ((k, v2) :: es)
            from by rw [fsize]] at hsz
          rw [show dumpVal (.obj ((k, v2) :: es)) l ++ rest
              = 123 :: 10 :: (pad (l + 1)
                  ++ (dumpEntry (k, v2) (l + 1) ++ (dumpObjTail es l ++ rest)))
            from by simp [dumpVal]]
          rw [show parseF (f + 1) .top
                (123 :: 10 :: (pad (l + 1)
                    ++ (dumpEntry (k, v2) (l + 1) ++ (dumpObjTail es l ++ rest))))
              = (match skipWs (10 :: (pad (l + 1)
                    ++ (dumpEntry (k, v2) (l + 1) ++ (dumpObjTail es l ++ rest)))) with
                 | 125 :: r2 => Except.ok ((JVal.obj [] : JVal), r2)
                 | r => parseF f (.objItems []) r) from rfl]
          rw [skipWs_pad, skipWs_dumpEntry]
          split
          · rename_i r2 heq
            rw [dumpEntry, List.cons_append] at heq
            exact absurd heq (by simp)
          · exact (ih3 k v2 es [] l rest hents.1.1 hents.1.2 hents.2
              (by rw [List.nil_append]; exact hnd) (by omega)).trans
              (by rw [List.nil_append])
    · intro x xs acc l rest hok hsz
      rw [show valOKItems (x :: xs) = (valOK x && valOKItems xs) from by rw [valOKItems],
        Bool.and_eq_true] at hok
      rw [show fitems (x :: xs) = 1 + fsize x + fitems xs from by rw [fitems]] at hsz
      rw [parseF_arr_ok f acc _ x (dumpArrTail xs l ++ rest)
        (ih1 x (l + 1) (dumpArrTail xs l ++ rest) hok.1 (numStop_arrTail xs l rest) (by omega))]
      cases xs with
      | nil =>
        rw [show dumpArrTail ([] : List JVal) l ++ rest = 10 :: (pad l ++ (93 :: rest))
          from by rw [dumpArrTail]; simp]
        rw [skipWs_pad]
        rfl
      | cons y ys =>
        rw [show dumpArrTail (y :: ys) l ++ rest
            = 44 :: 10 :: (pad (l + 1) ++ (dumpVal y (l + 1) ++ (dumpArrTail ys l ++ rest)))
          from by rw [dumpArrTail]; simp]
        show parseF f (.arrItems (acc ++ [x])) (skipWs (10 :: (pad (l + 1)
            ++ (dumpVal y (l + 1) ++ (dumpArrTail ys l ++ rest)))))
          = Except.ok (JVal.arr (acc ++ x :: y :: ys), rest)
        rw [skipWs_pad, skipWs_dumpVal,
          ih2 y ys (acc ++ [x]) l rest hok.2 (by omega), List.append_assoc]
        rfl
    · intro k v2 es acc l rest hk hv2 hes hnd hsz
      rw [show fents ((k, v2) :: es) = 1 + fsize v2 + fents es from by rw [fents]] at hsz
      rw [show dumpEntry (k, v2) (l + 1) ++ (dumpObjTail es l ++ rest)
          = 34 :: (encStr k ++ 34 :: (58 :: 32 :: (dumpVal v2 (l + 1)
              ++ (dumpObjTail es l ++ rest)))) from by rw [dumpEntry]; simp]
      rw [parseF_obj_k f acc _ k (58 :: 32 :: (dumpVal v2 (l + 1) ++ (dumpObjTail es l ++ rest)))
        (parseStr_encStr k hk _)]
      show (match parseF f .top (skipWs (32 :: (dumpVal v2 (l + 1)
            ++ (dumpObjTail es l ++ rest)))) with
          | .error e => .error e
          | .ok (v, r4) =>
            match skipWs r4 with
            | 125 :: r6 => Except.ok ((JVal.obj (insertKV acc k v) : JVal), r6)
            | 44 :: r6 => parseF f (.objItems (insertKV acc k v)) (skipWs r6)
            | _ => Except.error errExpCommaDelim)
        = Except.ok (JVal.obj (acc ++ (k, v2) :: es), rest)
      rw [show skipWs (32 :: (dumpVal v2 (l + 1) ++ (dumpObjTail es l ++ rest)))
          = skipWs (dumpVal v2 (l + 1) ++ (dumpObjTail es l ++ rest)) from by
        rw [skipWs_cons_of_ws 32 _ (Or.inl rfl)]]
      rw [skipWs_dumpVal,
        ih1 v2 (l + 1) (dumpObjTail es l ++ rest) hv2 (numStop_objTail es l rest) (by omega)]
      show (match skipWs (dumpObjTail es l ++ rest) with
          | 125 :: r6 => Except.ok ((JVal.obj (insertKV acc k v2) : JVal), r6)
          | 44 :: r6 => parseF f (.objItems (insertKV acc k v2)) (skipWs r6)
          | _ => Except.error errExpCommaDelim)
        = Except.ok (JVal.obj (acc ++ (k, v2) :: es), rest)
      have hins : insertKV acc k v2 = acc ++ [(k, v2)] :=
        insertKV_not_mem acc k v2 (nodupKeys_split acc k v2 es hnd)
      cases es with
      | nil =>
        rw [show dumpObjTail ([] : List (List Nat × JVal)) l ++ rest
            = 10 :: (pad l ++ (125 :: rest)) from by rw [dumpObjTail]; simp]
        rw [skipWs_pad]
        show Except.ok ((JVal.obj (insertKV acc k v2) : JVal), rest)
          = Except.ok (JVal.obj (acc ++ [(k, v2)]), rest)
        rw [hins]
      | cons e2 es2 =>
        obtain ⟨k2, w2⟩ := e2
        rw [show valOKEntries ((k2, w2) :: es2) = (strOKb k2 && valOK w2 && valOKEntries es2)
          from by rw [valOKEntries], Bool.and_eq_true, Bool.and_eq_true] at hes
        rw [show dumpObjTail ((k2, w2) :: es2) l ++ rest
            = 44 :: 10 :: (pad (l + 1)
                ++ (dumpEntry (k2, w2) (l + 1) ++ (dumpObjTail es2 l ++ rest)))
          from by rw [dumpObjTail]; simp]
        show parseF f (.objItems (insertKV acc k v2)) (skipWs (10 :: (pad (l + 1)
            ++ (dumpEntry (k2, w2) (l + 1) ++ (dumpObjTail es2 l ++ rest)))))
          = Except.ok (JVal.obj (acc ++ (k, v2) :: (k2, w2) :: es2), rest)
        rw [skipWs_pad, skipWs_dumpEntry, hins,
          ih3 k2 w2 es2 (acc ++ [(k, v2)]) l rest hes.1.1 hes.1.2 hes.2
            (by rw [List.append_assoc]; exact hnd) (by omega),
          List.append_assoc]
        rfl

theorem jsonLoads_valOK (s : List Nat) (v : JVal) (h : jsonLoads s = .ok v) :
    valOK v = true := by
  replace h : (match parseF (2 * (skipWs s).length + 2) .top (skipWs s) with
      | .error e => .error e
      | .ok (w, r) =>
        match skipWs r with
        | [] => Except.ok w
        | _ => Except.error errExtraData) = Except.ok v := h
  cases hp : parseF (2 * (skipWs s).length + 2) .top (skipWs s) with
  | error e =>
    rw [hp] at h
    exact Except.noConfusion h
  | ok p =>
    obtain ⟨w, r⟩ := p
    rw [hp] at h
    replace h : (match skipWs r with
        | [] => Except.ok w
        | _ => Except.error errExtraData) = Except.ok v := h
    cases hr : skipWs r with
    | nil =>
      rw [hr] at h
      replace h : Except.ok w = Except.ok v := h
      injection h with hwv
      subst hwv
      exact (parseF_valOK _).1 _ _ r hp
    | cons a t =>
      rw [hr] at h
      exact Except.noConfusion h

theorem jsonLoads_dumpTop (v : JVal) (hok : valOK v = true) :
    jsonLoads (dumpTop v) = .ok v := by
  have hskip : skipWs (dumpTop v) = dumpTop v := by
    have h := skipWs_dumpVal v 0 []
    rwa [List.append_nil] at h
  show (match parseF (2 * (skipWs (dumpTop v)).length + 2) .top (skipWs (dumpTop v)) with
      | .error e => .error e
      | .ok (w, r) =>
        match skipWs r with
        | [] => Except.ok w
        | _ => Except.error errExtraData) = Except.ok v
  rw [hskip]
  have hp : parseF (2 * (dumpTop v).length + 2) .top (dumpTop v) = .ok (v, []) := by
    have hsz : fsize v ≤ 2 * (dumpTop v).length + 2 := by
      have h1 := fsize_le v 0
      have h2 : dumpTop v = dumpVal v 0 := rfl
      rw [h2]
      omega
    have h3 := (parseF_dump (2 * (dumpTop v).length + 2)).1 v 0 [] hok rfl hsz
    rwa [List.append_nil] at h3
  rw [hp]
  rfl

/-- C6, counterexample: the input `{"a": ",]"}` is valid JSON and contains no
comments (no `//` and no `/*` occur in it), the conversion succeeds, yet the
written output parses to a different value: the trailing-comma substitution
deleted the comma inside the string literal. -/
theorem claim_C6_counterexample :
    jsonLoads (strN "\x7b\"a\": \",]\"\x7d") = .ok (.obj [([97], .str [44, 93])])
    ∧ ¬ ([47, 47] <:+: strN "\x7b\"a\": \",]\"\x7d")
    ∧ ¬ ([47, 42] <:+: strN "\x7b\"a\": \",]\"\x7d")
    ∧ (convert_jsonc_to_json (strN "in.jsonc") (strN "\x7b\"a\": \",]\"\x7d")).exitCode = 0
    ∧ (convert_jsonc_to_json (strN "in.jsonc") (strN "\x7b\"a\": \",]\"\x7d")).written
        = some (strN "in.json", strN "\x7b\n    \"a\": \"]\"\n\x7d")
    ∧ jsonLoads (strN "\x7b\n    \"a\": \"]\"\n\x7d") = .ok (.obj [([97], .str [93])])
    ∧ (JVal.obj [([97], .str [93])]) ≠ (JVal.obj [([97], .str [44, 93])]) :=
  ⟨by decide, by decide, by decide, by decide, by decide, by decide, by decide⟩

/-- C6 (amended): for every input whose content is already valid JSON on
which the cleaning steps make no change (in particular it contains no
comments and no comment-like or trailing-comma-like sequences inside its
string literals), the conversion succeeds, writes the parsed value to the
derived output path serialized with 4-space indentation and object keys in
their encountered order, and the output file's parsed value is structurally
equal to the input's parsed value. -/
theorem claim_C6 : ∀ input_path content v,
    cleanAll content = content →
    jsonLoads content = .ok v →
    convert_jsonc_to_json input_path content =
      { exitCode := 0
        printed := [strN "Successfully created: " ++ outputPathOf input_path]
        written := some (outputPathOf input_path, dumpTop v) }
    ∧ jsonLoads (dumpTop v) = .ok v := by
  intro p content v hfix hload
  have hok : valOK v = true := jsonLoads_valOK content v hload
  constructor
  · unfold convert_jsonc_to_json
    rw [hfix, hload]
    rfl
  · exact jsonLoads_dumpTop v hok

theorem claim_C6_witness :
    convert_jsonc_to_json (strN "w.jsonc") (strN "\x7b\"a\": [1, 2]\x7d") =
      { exitCode := 0
        printed := [strN "Successfully created: " ++ outputPathOf (strN "w.jsonc")]
        written := some (outputPathOf (strN "w.jsonc"),
          dumpTop (.obj [([97], .arr [.num 1, .num 2])])) }
    ∧ jsonLoads (dumpTop (.obj [([97], .arr [.num 1, .num 2])]))
        = .ok (.obj [([97], .arr [.num 1, .num 2])]) :=
  claim_C6 (strN "w.jsonc") (strN "\x7b\"a\": [1, 2]\x7d")
    (.obj [([97], .arr [.num 1, .num 2])]) (by decide) (by decide)

/-- C7, counterexample: on the input `{"a": "\/\/"}` the conversion succeeds
(the escaped solidi hide the `//` from the cleaning steps), but the produced
output spells the string value literally as `//`, so running the converter
on its own output fails with a parse error instead of reproducing the value:
the claimed idempotence does not hold for every successful input. -/
theorem claim_C7_counterexample :
    (convert_jsonc_to_json (strN "x.jsonc") (strN "\x7b\"a\": \"\\/\\/\"\x7d")).exitCode = 0
    ∧ (convert_jsonc_to_json (strN "x.jsonc") (strN "\x7b\"a\": \"\\/\\/\"\x7d")).written
        = some (strN "x.json", strN "\x7b\n    \"a\": \"//\"\n\x7d")
    ∧ (convert_jsonc_to_json (strN "x.jsonc") (strN "\x7b\n    \"a\": \"//\"\n\x7d")).exitCode = 1
    ∧ (convert_jsonc_to_json (strN "x.jsonc") (strN "\x7b\n    \"a\": \"//\"\n\x7d")).written
        = none :=
  ⟨by decide, by decide, by decide, by decide⟩

/-- C7 (amended): whenever conversion succeeds and the cleaning steps leave
the produced output text unchanged (which holds except when the parsed value
itself contains comment-like or trailing-comma-like character sequences in
its strings), running the converter again on that output succeeds and
produces byte-identical output — a structurally identical JSON value with
no further changes made by the cleaning steps. -/
theorem claim_C7 : ∀ path1 path2 content v,
    jsonLoads (cleanAll content) = .ok v →
    cleanAll (dumpTop v) = dumpTop v →
    (convert_jsonc_to_json path1 content).written = some (outputPathOf path1, dumpTop v)
    ∧ convert_jsonc_to_json path2 (dumpTop v) =
      { exitCode := 0
        printed := [strN "Successfully created: " ++ outputPathOf path2]
        written := some (outputPathOf path2, dumpTop v) } := by
  intro p1 p2 content v h1 h2
  have hok : valOK v = true := jsonLoads_valOK _ v h1
  constructor
  · unfold convert_jsonc_to_json
    rw [h1]
    rfl
  · unfold convert_jsonc_to_json
    rw [h2, jsonLoads_dumpTop v hok]
    rfl

theorem claim_C7_witness :
    (convert_jsonc_to_json (strN "y.jsonc") (strN "\x7b\"a\": 1\x7d")).written
      = some (outputPathOf (strN "y.jsonc"), dumpTop (.obj [([97], .num 1)]))
    ∧ convert_jsonc_to_json (strN "y.json") (dumpTop (.obj [([97], .num 1)])) =
      { exitCode := 0
        printed := [strN "Successfully created: " ++ outputPathOf (strN "y.json")]
        written := some (outputPathOf (strN "y.json"), dumpTop (.obj [([97], .num 1)])) } :=
  claim_C7 (strN "y.jsonc") (strN "y.json") (strN "\x7b\"a\": 1\x7d")
    (.obj [([97], .num 1)]) (by decide) (by decide)
